import Mathlib

/-!
Systolic matrix multiplication and its matrix generator.

A shallow embedding of `problem1/matrix_generator.c` and
`problem1/systolic_matrix_mul.c`.

* C `int` values that are sizes, ranks, loop counters or array indices are natural
  numbers; the quantities the code lets go negative (`idx`, `k`, `have_A`, the
  arguments of `adjust_size`) are integers.  All of them are unbounded: the
  development is about runs in which no `int` computation overflows.
* A `double *` buffer is a function from offsets to values.  Matrix entries live in
  an arbitrary commutative ring, so `+` and `*` are exact.
* The `p × p` process group is a map from ranks to per-process states, advanced one
  pipeline stage at a time; a block posted with `MPI_Isend` in stage `s` is the block
  its neighbour obtains from `MPI_Irecv` in stage `s`.
-/

namespace MatrixGenerator

/-- The function `adjust_size` of `matrix_generator.c`; `%` is C remainder
(truncating), all arithmetic is on unbounded integers. -/
def adjust_size (base threads : Int) : Int :=
  let rem := base.tmod threads
  if rem = 0 then base
  else
    let down := base - rem
    let up := base + (threads - rem)
    if base - down ≤ up - base then (if down > 0 then down else up) else up

end MatrixGenerator

namespace Systolic

/-- A C array of matrix entries, addressed by offset. -/
abbrev Buf (R : Type) := Nat → R

/-- The call `memcpy(&dst[doff], &src[soff], n * sizeof(double))`. -/
def memcpy {R : Type} (dst : Buf R) (doff : Nat) (src : Buf R) (soff n : Nat) : Buf R :=
  fun x => if doff ≤ x ∧ x < doff + n then src (soff + (x - doff)) else dst x

/-- The call `memset(dst, 0, n * sizeof(double))`. -/
def memset_zero {R : Type} [Zero R] (dst : Buf R) (n : Nat) : Buf R :=
  fun x => if x < n then 0 else dst x

/-- The three buffers `dgemm_tile` is called with. -/
structure Tile (R : Type) where
  A : Buf R
  B : Buf R
  C : Buf R

/-- The statement `C[i * bs + j] += A[i * bs + k] * B[k * bs + j]`. -/
def dgemm_body {R : Type} [CommRing R] (bs i k j : Nat) (t : Tile R) : Tile R :=
  { A := t.A, B := t.B,
    C := Function.update t.C (i * bs + j)
      (t.C (i * bs + j) + t.A (i * bs + k) * t.B (k * bs + j)) }

/-- The function `dgemm_tile`: the loop nest in the order i, k, j. -/
def dgemm_tile {R : Type} [CommRing R] (t : Tile R) (bs : Nat) : Tile R :=
  (List.range bs).foldl (fun t i =>
    (List.range bs).foldl (fun t k =>
      (List.range bs).foldl (fun t j => dgemm_body bs i k j t) t) t) t

/-- The value of `(int)round(sqrt((double)size))`: the integer nearest to the square
root of `size`.  With `q` the integer part of the root, the root lies below `q + 1/2`
exactly when `size ≤ q * q + q`.  (An `int` converts to `double` exactly, `sqrt` is
correctly rounded, and the root of an `int` that is not a perfect square is further
from every half-integer than the spacing of `double` values, so the library calls
return this integer.) -/
def round_sqrt (size : Nat) : Nat :=
  let q := Nat.sqrt size
  if size - q * q ≤ q then q else q + 1

/-- The condition `p * p != size || N % p` under which `main` aborts (line 91). -/
def topology_fails (size N : Nat) : Bool :=
  let p := round_sqrt size
  p * p != size || N % p != 0

/-- One `memcpy` call of a copy loop: destination offset, source offset and number
of elements. -/
structure Copy where
  dst : Nat
  src : Nat
  len : Nat

/-- Executing a sequence of `memcpy` calls that read `src` and write `dst`. -/
def run_copies {R : Type} (src : Buf R) (cs : List Copy) (dst : Buf R) : Buf R :=
  cs.foldl (fun buf c => memcpy buf c.dst src c.src c.len) dst

/-- The cells of the destination array written by one `memcpy` call, in order. -/
def Copy.cells (c : Copy) : List Nat :=
  (List.range c.len).map (fun x => c.dst + x)

/-- The `memcpy` calls that fill `rowbuf` for grid row `r` from `A`:
`for k < p, for i < bs: memcpy(&rowbuf[k*bs*bs + i*bs], &A[(r*bs + i)*N + k*bs], bs)`. -/
def rowbuf_copies (N p bs r : Nat) : List Copy :=
  (List.range p).flatMap (fun k =>
    (List.range bs).map (fun i => Copy.mk (k * bs * bs + i * bs) ((r * bs + i) * N + k * bs) bs))

/-- The `memcpy` calls that fill `colbuf` for grid column `c` from `B`:
`for k < p, for i < bs: memcpy(&colbuf[k*bs*bs + i*bs], &B[(k*bs + i)*N + c*bs], bs)`. -/
def colbuf_copies (N p bs c : Nat) : List Copy :=
  (List.range p).flatMap (fun k =>
    (List.range bs).map (fun i => Copy.mk (k * bs * bs + i * bs) ((k * bs + i) * N + c * bs) bs))

/-- The row-band buffer the root builds for grid row `r`; `fresh` is the content of
the newly allocated `rowbuf`. -/
def build_rowbuf {R : Type} (A : Buf R) (N p bs r : Nat) (fresh : Buf R) : Buf R :=
  run_copies A (rowbuf_copies N p bs r) fresh

/-- The column-band buffer the root builds for grid column `c`. -/
def build_colbuf {R : Type} (B : Buf R) (N p bs c : Nat) (fresh : Buf R) : Buf R :=
  run_copies B (colbuf_copies N p bs c) fresh

/-- The buffers of one process.  `calls` is a ghost log: the stages at which the
process called `dgemm_tile`; nothing reads it. -/
structure Proc (R : Type) where
  Ablk : Buf R
  Bblk : Buf R
  Cblk : Buf R
  A_in : Buf R
  B_in : Buf R
  A_rowbuf : Buf R
  B_colbuf : Buf R
  calls : List Nat

/-- The process group: the state of the process of each rank. -/
abbrev World (R : Type) := Nat → Proc R

/-- The neighbour `east`; `none` is `MPI_PROC_NULL`. -/
def east (p rank : Nat) : Option Nat :=
  if rank % p < p - 1 then some (rank + 1) else none

/-- The neighbour `south`. -/
def south (p rank : Nat) : Option Nat :=
  if rank / p < p - 1 then some (rank + p) else none

/-- The neighbour `west`. -/
def west (p rank : Nat) : Option Nat :=
  if rank % p > 0 then some (rank - 1) else none

/-- The neighbour `north`. -/
def north (p rank : Nat) : Option Nat :=
  if rank / p > 0 then some (rank - p) else none

/-- Lines 99-154 of `main` as seen by the process `rank`, whose memory before is
`mem rank`.  `Cblk` comes zeroed from `calloc`.  The process of grid column 0 obtains
in `A_rowbuf` the `p * bs * bs` elements of the row band the root built for
`r = my_row` (by `memcpy` on rank 0, else by the `MPI_Send` to `r * p` with tag
`10 + r` and the `MPI_Recv` with tag `10 + my_row`); likewise `B_colbuf` in grid
row 0.  Then `Ablk` and `Bblk` are zeroed and the process (0, 0) loads band block 0. -/
def startup {R : Type} [CommRing R] (N p bs : Nat) (A B : Buf R) (fresh : Buf R)
    (mem : World R) : World R := fun rank =>
  let me := mem rank
  let my_row := rank / p
  let my_col := rank % p
  let Cblk := memset_zero me.Cblk (bs * bs)
  let A_rowbuf :=
    if my_col = 0 then memcpy me.A_rowbuf 0 (build_rowbuf A N p bs my_row fresh) 0 (p * bs * bs)
    else me.A_rowbuf
  let B_colbuf :=
    if my_row = 0 then memcpy me.B_colbuf 0 (build_colbuf B N p bs my_col fresh) 0 (p * bs * bs)
    else me.B_colbuf
  let Ablk0 := memset_zero me.Ablk (bs * bs)
  let Bblk0 := memset_zero me.Bblk (bs * bs)
  let Ablk := if my_row = 0 ∧ my_col = 0 then memcpy Ablk0 0 A_rowbuf 0 (bs * bs) else Ablk0
  let Bblk := if my_row = 0 ∧ my_col = 0 then memcpy Bblk0 0 B_colbuf 0 (bs * bs) else Bblk0
  { Ablk := Ablk, Bblk := Bblk, Cblk := Cblk, A_in := me.A_in, B_in := me.B_in,
    A_rowbuf := A_rowbuf, B_colbuf := B_colbuf, calls := [] }

/-- The contribution index `k = s - my_row - my_col`. -/
def contribution_index (s my_row my_col : Nat) : Int :=
  (s : Int) - (my_row : Int) - (my_col : Int)

/-- Stage `s` of the process `rank` up to and including the two replacing `memcpy`
calls (lines 162-202); `g` is the process group at the start of the stage.  The
`MPI_Irecv` from `west` obtains the `Ablk` that `west` passes to `MPI_Isend` at the
start of the same stage, the one from `north` obtains its `Bblk`. -/
def stage_replace {R : Type} (p bs s rank : Nat) (g : World R) : Proc R :=
  let me := g rank
  let my_row := rank / p
  let my_col := rank % p
  let ra : Buf R × Int :=
    match west p rank with
    | some w => (memcpy me.A_in 0 (g w).Ablk 0 (bs * bs), -1)
    | none =>
      if my_col = 0 then
        let idx : Int := (s : Int) - (my_row : Int)
        if 0 ≤ idx ∧ idx < (p : Int) then
          (memcpy me.A_in 0 me.A_rowbuf (idx.toNat * bs * bs) (bs * bs), 1)
        else (me.A_in, 0)
      else (me.A_in, 0)
  let rb : Buf R × Int :=
    match north p rank with
    | some n => (memcpy me.B_in 0 (g n).Bblk 0 (bs * bs), -1)
    | none =>
      if my_row = 0 then
        let idx : Int := (s : Int) - (my_col : Int)
        if 0 ≤ idx ∧ idx < (p : Int) then
          (memcpy me.B_in 0 me.B_colbuf (idx.toNat * bs * bs) (bs * bs), 1)
        else (me.B_in, 0)
      else (me.B_in, 0)
  let have_A : Int := if ra.2 = -1 then 1 else ra.2
  let have_B : Int := if rb.2 = -1 then 1 else rb.2
  let Ablk := if have_A ≠ 0 then memcpy me.Ablk 0 ra.1 0 (bs * bs) else me.Ablk
  let Bblk := if have_B ≠ 0 then memcpy me.Bblk 0 rb.1 0 (bs * bs) else me.Bblk
  { Ablk := Ablk, Bblk := Bblk, Cblk := me.Cblk, A_in := ra.1, B_in := rb.1,
    A_rowbuf := me.A_rowbuf, B_colbuf := me.B_colbuf, calls := me.calls }

/-- The end of stage `s` (lines 204-205): `if (k >= 0 && k < p) dgemm_tile(...)`. -/
def stage_compute {R : Type} [CommRing R] (p bs s rank : Nat) (me : Proc R) : Proc R :=
  let k := contribution_index s (rank / p) (rank % p)
  if 0 ≤ k ∧ k < (p : Int) then
    let t := dgemm_tile (Tile.mk me.Ablk me.Bblk me.Cblk) bs
    { Ablk := t.A, Bblk := t.B, Cblk := t.C, A_in := me.A_in, B_in := me.B_in,
      A_rowbuf := me.A_rowbuf, B_colbuf := me.B_colbuf, calls := me.calls ++ [s] }
  else me

/-- One pipeline stage of the whole process group. -/
def stage {R : Type} [CommRing R] (p bs s : Nat) (g : World R) : World R :=
  fun rank => stage_compute p bs s rank (stage_replace p bs s rank g)

/-- The loop `for (s = 0; s < n; ++s)` over pipeline stages. -/
def run_stages {R : Type} [CommRing R] (p bs n : Nat) (g : World R) : World R :=
  (List.range n).foldl (fun g s => stage p bs s g) g

/-- The constant `stages = 3 * p - 2`. -/
def stages (p : Nat) : Nat := 3 * p - 2

/-- The `memcpy` calls with which the root places its own block:
`for i < bs: memcpy(&C[i*N], &Cblk[i*bs], bs)`. -/
def own_copies (N bs : Nat) : List Copy :=
  (List.range bs).map (fun i => Copy.mk (i * N) (i * bs) bs)

/-- The `memcpy` calls with which the root places the block of rank `r`, with
`i = r / p`, `j = r % p`:
`for ii < bs: memcpy(&C[(i*bs + ii)*N + j*bs], &tmp[ii*bs], bs)`. -/
def block_copies (N p bs r : Nat) : List Copy :=
  (List.range bs).map (fun ii =>
    Copy.mk (((r / p) * bs + ii) * N + (r % p) * bs) (ii * bs) bs)

/-- The result collection of the root (lines 213-224): `Cblk r` is the accumulator
of rank `r`, `C` the content of the newly allocated output array, `fresh` that of
each newly allocated `tmp`, which `MPI_Recv` fills with `bs * bs` elements. -/
def collect {R : Type} (size N p bs : Nat) (Cblk : Nat → Buf R) (fresh C : Buf R) : Buf R :=
  let C0 := run_copies (Cblk 0) (own_copies N bs) C
  (List.range' 1 (size - 1)).foldl (fun C r =>
    let tmp := memcpy fresh 0 (Cblk r) 0 (bs * bs)
    run_copies tmp (block_copies N p bs r) C) C0

/-- The cells of the output array written during the collection, in the order of
the writes. -/
def collect_writes (size N p bs : Nat) : List Nat :=
  (own_copies N bs).flatMap Copy.cells ++
  (List.range' 1 (size - 1)).flatMap (fun r => (block_copies N p bs r).flatMap Copy.cells)

/-- Follows the words of the specification, not the code: the `bs × bs` block
`(a, b)` of the `N × N` matrix `M`, stored row-major; its cell `(ii, jj)` is
`M[(a*bs + ii)*N + b*bs + jj]`. -/
def sub_block {R : Type} (M : Buf R) (N bs a b : Nat) : Buf R :=
  fun y => M ((a * bs + y / bs) * N + b * bs + y % bs)

/-- Follows the words of the specification, not the code: the block of `M` that
belongs to the process `rank`, whose grid position is `(rank / p, rank % p)`. -/
def split_block {R : Type} (M : Buf R) (N p bs rank : Nat) : Buf R :=
  sub_block M N bs (rank / p) (rank % p)

/-- The sum of the first `K` block products `A[row,k] × B[k,col]` at the cell `y` of
a block. -/
def product_upto {R : Type} [CommRing R] (A B : Buf R) (N bs row col K y : Nat) : R :=
  ∑ k ∈ Finset.range K, ∑ l ∈ Finset.range bs,
    sub_block A N bs row k ((y / bs) * bs + l) * sub_block B N bs k col (l * bs + y % bs)

/-- Invariant of the stage loop after `t` stages, relative to the process group `g0`
the loop started from: the band buffers are those of `g0`; a process whose
contribution index in the stage just finished was `k < p` holds the blocks `A[row,k]`
and `B[k,col]`; and its accumulator holds the products of the contribution stages
so far. -/
def PipelineInv {R : Type} [CommRing R] (p bs : Nat) (A B : Buf R) (g0 : World R) (t : Nat)
    (g : World R) : Prop :=
  ∀ row col, row < p → col < p →
    (g (row * p + col)).A_rowbuf = (g0 (row * p + col)).A_rowbuf ∧
    (g (row * p + col)).B_colbuf = (g0 (row * p + col)).B_colbuf ∧
    (∀ k, k < p → row + col + k + 1 = t → ∀ y, y < bs * bs →
      (g (row * p + col)).Ablk y = sub_block A (p * bs) bs row k y ∧
      (g (row * p + col)).Bblk y = sub_block B (p * bs) bs k col y) ∧
    (∀ y, y < bs * bs → (g (row * p + col)).Cblk y =
      product_upto A B (p * bs) bs row col (min t (row + col + p) - (row + col)) y)

/-- What a run does that is visible from outside, in order. -/
inductive Event where
  | distribute
  | stage (s : Nat)
  | write_full_matrix

/-- The end of a run: the phases it went through, and either the code passed to
`MPI_Abort` or the matrix written to the output file. -/
structure Outcome (R : Type) where
  events : List Event
  result : Except Nat (Buf R)

/-- The function `main` of `systolic_matrix_mul.c` from line 86 on, for a group of
`size` processes: `N` is the side detected in the first file, `A` and `B` the
matrices read from the two files, `mem` the memory of the processes before the run,
`fresh` the content of newly allocated scratch buffers, `C` that of the newly
allocated output array. -/
def main {R : Type} [CommRing R] (size N : Nat) (A B : Buf R) (mem : World R)
    (fresh C : Buf R) : Outcome R :=
  let p := round_sqrt size
  if topology_fails size N then
    Outcome.mk [] (Except.error 1)
  else
    let bs := N / p
    let g0 := startup N p bs A B fresh mem
    let g := run_stages p bs (stages p) g0
    let Cfull := collect size N p bs (fun r => (g r).Cblk) fresh C
    Outcome.mk ([Event.distribute] ++ (List.range (stages p)).map Event.stage
      ++ [Event.write_full_matrix]) (Except.ok Cfull)

end Systolic


/-! ## Sample matrices -/

namespace Systolic

/-- The matrix `[[1,2,3,4],[5,6,7,8],[9,10,11,12],[13,14,15,16]]`, row-major. -/
def sampleA4 : Buf Int := fun x => (x : Int) + 1

/-- The 4 × 4 identity matrix, row-major. -/
def sampleI4 : Buf Int := fun x => if x / 4 = x % 4 then 1 else 0

/-- Arbitrary non-zero contents for a buffer that the program has not written yet. -/
def sampleFresh : Buf Int := fun x => 1000 + (x : Int)

/-- Arbitrary non-zero contents for the memory of every process. -/
def sampleMem : World Int := fun r =>
  { Ablk := fun x => 7 + (r : Int) + x, Bblk := fun x => 11 + (x : Int), Cblk := fun _ => 5,
    A_in := fun _ => 3, B_in := fun _ => 9, A_rowbuf := fun _ => 1, B_colbuf := fun _ => 2,
    calls := [99] }

end Systolic

/-! ## Grid coordinates, neighbours' requests and distribution messages -/

namespace Systolic

/-- The grid row of a process, `my_row = rank / p` (line 97; `i = r / p` in the
collector, line 220). -/
def my_row (p rank : Nat) : Nat := rank / p

/-- The grid column of a process, `my_col = rank % p` (line 97; `j = r % p` in the
collector, line 220). -/
def my_col (p rank : Nat) : Nat := rank % p

/-- The value of `nreq` when the process `rank` reaches `MPI_Waitall`: one request
for each of the two `MPI_Isend` and the two `MPI_Irecv` that has a neighbour
(lines 163-197). -/
def nreq (p rank : Nat) : Nat :=
  let n0 := 0
  let n1 := if (east p rank).isSome then n0 + 1 else n0
  let n2 := if (south p rank).isSome then n1 + 1 else n1
  let n3 := if (west p rank).isSome then n2 + 1 else n2
  let n4 := if (north p rank).isSome then n3 + 1 else n3
  n4

/-- The destination and the tag of every `MPI_Send` of the root during the
distribution, in the order of the calls (lines 117-139): the row band `r` goes to
`dest = r * p` with tag `10 + r` and the column band `c` to `dest = c` with tag
`20 + c`, each only when `dest` is not 0. -/
def root_sends (p : Nat) : List (Nat × Nat) :=
  (List.range p).filterMap (fun r => if r * p = 0 then none else some (r * p, 10 + r)) ++
  (List.range p).filterMap (fun c => if c = 0 then none else some (c, 20 + c))

/-- The tags of the `MPI_Recv` calls from rank 0 that the process `rank` posts during
the distribution, in order (lines 141-146). -/
def posted_recvs (p rank : Nat) : List Nat :=
  if rank = 0 then []
  else
    (if my_col p rank = 0 then [10 + my_row p rank] else []) ++
    (if my_row p rank = 0 then [20 + my_col p rank] else [])

end Systolic

/-!
The heat-diffusion solver.

A shallow embedding of `problem3/code/main.c`.  The `int` variables are unbounded
integers, a `double *` grid is a function from `int` offsets to values, and the
values are exact rationals: `0.25`, `0.3` and `0.2` are `1/4`, `3/10` and `1/5`.  The
two loops of a sweep, which OpenMP runs in parallel, write disjoint cells of `next`
and read only `grid`, so they are executed here in the sequential order.
-/

namespace HeatSolver

/-- A grid of temperatures, addressed by `int` offset. -/
abbrev Grid := Int → ℚ

/-- The constant `T_AVG`. -/
def T_AVG : ℚ := 15

/-- The constant `T_HOT_A`. -/
def T_HOT_A : ℚ := 250

/-- The constant `T_HOT_B`. -/
def T_HOT_B : ℚ := 540

/-- The constant `W_x`, 0.3. -/
def W_x : ℚ := 3 / 10

/-- The constant `W_y`, 0.2. -/
def W_y : ℚ := 1 / 5

/-- The function `index`. -/
def index (i j N : Int) : Int := i * N + j

/-- The value `init_plate` stores at `(i, j)` (lines 35-54); `/` is C division. -/
def init_value (N mode i j : Int) : ℚ :=
  if mode = 0 then
    if j < N.tdiv 2 then T_HOT_A else T_AVG
  else
    let quarter := N.tdiv 4
    let three_quarter := (3 * N).tdiv 4
    if i ≥ quarter ∧ i < three_quarter ∧ j ≥ quarter ∧ j < three_quarter then T_HOT_B
    else T_AVG

/-- The function `init_plate`. -/
def init_plate (grid : Grid) (N : Nat) (mode : Int) : Grid :=
  (List.range N).foldl (fun g (i : Nat) =>
    (List.range N).foldl (fun g (j : Nat) =>
      Function.update g (index i j N) (init_value N mode i j)) g) grid

/-- The five offsets of the stencil at `(i, j)`. -/
structure Stencil where
  center : Int
  top : Int
  bottom : Int
  left : Int
  right : Int

/-- The offsets computed at lines 151-168: the five initial values, then the four
overrides at the boundary. -/
def stencil (i j N : Int) : Stencil :=
  let center := i * N + j
  let top := (i - 1) * N + j
  let bottom := (i + 1) * N + j
  let left := i * N + (j - 1)
  let right := i * N + (j + 1)
  let left := if j = 0 then i * N + j else left
  let right := if j = N - 1 then i * N + j else right
  let top := if i = 0 then i * N + j else top
  let bottom := if i = N - 1 then i * N + j else bottom
  { center := center, top := top, bottom := bottom, left := left, right := right }

/-- The value `new_temperature` (lines 175-185). -/
def new_temperature (mode : Int) (grid : Grid) (st : Stencil) : ℚ :=
  if mode = 0 then
    (1 / 4) * (grid st.top + grid st.bottom + grid st.left + grid st.right)
  else
    W_x * (grid st.left + grid st.right) + W_y * (grid st.top + grid st.bottom)

/-- The body of the two loops of a sweep (lines 151-195) on the pair of `next` and
`max_difference`. -/
def sweep_body (mode : Int) (N : Nat) (grid : Grid) (i j : Nat) (s : Grid × ℚ) : Grid × ℚ :=
  let st := stencil i j N
  let t := new_temperature mode grid st
  let diff := |t - grid st.center|
  (Function.update s.1 st.center t, if diff > s.2 then diff else s.2)

/-- One iteration of the outer loop up to the swap (lines 142-199): the filled
`next` and the value of `max_difference`. -/
def sweep (mode : Int) (N : Nat) (grid next : Grid) : Grid × ℚ :=
  (List.range N).foldl (fun s i =>
    (List.range N).foldl (fun s j => sweep_body mode N grid i j s) s) (next, 0)

/-- The loop `for (iter = 1; iter <= max_iter; iter++)` with `n` iterations left
(lines 139-219): sweep, swap the two grids, leave when `max_difference < eps`.  The
result is the pair of `grid` and `next` after the loop. -/
def heat_loop (mode : Int) (N : Nat) (eps : ℚ) : Nat → Grid → Grid → Grid × Grid
  | 0, grid, next => (grid, next)
  | n + 1, grid, next =>
    let r := sweep mode N grid next
    if r.2 < eps then (r.1, grid) else heat_loop mode N eps n r.1 grid

/-- The function `main` of the solver from line 121 on: the grid it ends with.  Both
grids come zeroed from `calloc`. -/
def main (N : Nat) (mode : Int) (eps : ℚ) (max_iter : Int) : Grid :=
  (heat_loop mode N eps max_iter.toNat (init_plate (fun _ => 0) N mode) (fun _ => 0)).1

/-- Follows the words of the specification, not the code: the minimum of the cells
of an `N × N` grid. -/
def grid_min (N : Nat) (grid : Grid) : ℚ :=
  (List.range (N * N)).foldl (fun m (c : Nat) => min m (grid c)) (grid 0)

/-- Follows the words of the specification, not the code: the maximum of the cells
of an `N × N` grid. -/
def grid_max (N : Nat) (grid : Grid) : ℚ :=
  (List.range (N * N)).foldl (fun m (c : Nat) => max m (grid c)) (grid 0)

/-- A sample grid for instances. -/
def sampleGrid : Grid := fun c => if c % 2 = 0 then 100 else 20

end HeatSolver

namespace Systolic

/-- The matrix `[[1,2],[3,4]]`, row-major. -/
def sampleA2 : Buf Int := fun x => (x : Int) + 1

/-- The matrix `[[5,6],[7,8]]`, row-major. -/
def sampleB2 : Buf Int := fun x => (x : Int) + 5

end Systolic

/-! ## Reading the input files -/

namespace Systolic

/-- The variables `rows`, `cols`, `first` and `last` of `detect_matrix_size`. -/
structure Scan where
  rows : Nat
  cols : Nat
  first : Int
  last : Char

/-- One iteration of the loop `while ((ch = fgetc(fp)) != EOF)` (lines 25-27). -/
def scan_char (st : Scan) (ch : Char) : Scan :=
  if ch = ',' then
    if st.first ≠ 0 then { rows := st.rows, cols := st.cols + 1, first := st.first, last := ch }
    else { rows := st.rows, cols := st.cols, first := st.first, last := ch }
  else if ch = '\n' then { rows := st.rows + 1, cols := st.cols, first := 0, last := ch }
  else { rows := st.rows, cols := st.cols, first := st.first, last := ch }

/-- The function `detect_matrix_size` on the content of the file, `none` when `fopen`
fails: the size it returns, or the code it passes to `MPI_Abort`. -/
def detect_matrix_size (file : Option (List Char)) : Except Nat Nat :=
  match file with
  | none => Except.error 1
  | some text =>
    let st := text.foldl scan_char { rows := 0, cols := 1, first := 1, last := Char.ofNat 0 }
    let rows := if st.last ≠ '\n' then st.rows + 1 else st.rows
    if rows ≠ st.cols then Except.error 1 else Except.ok rows

/-- The directive `%*[,\n]` of the format of `read_full_matrix`: it skips the longest
run of commas and newlines. -/
def skip_separators : List Char → List Char
  | [] => []
  | c :: cs => if c = ',' ∨ c = '\n' then skip_separators cs else c :: cs

/-- One call `fscanf(fp, "%lf%*[,\n]", &M[i])` on the unread input: the value stored
and the input left, or `none` when the call does not return 1.  The conversion `%lf`
of the C library is the parameter `scan_lf`. -/
def fscanf_entry {R : Type} (scan_lf : List Char → Option (R × List Char))
    (input : List Char) : Option (R × List Char) :=
  match scan_lf input with
  | none => none
  | some (v, rest) => some (v, skip_separators rest)

/-- The function `read_full_matrix` on the content of the file, `none` when `fopen`
fails: the array `M` after the `n * n` reads, or the code passed to `MPI_Abort`. -/
def read_full_matrix {R : Type} (scan_lf : List Char → Option (R × List Char))
    (file : Option (List Char)) (M : Buf R) (n : Nat) : Except Nat (Buf R) :=
  match file with
  | none => Except.error 1
  | some text =>
    match (List.range (n * n)).foldl
        (fun (acc : Except Nat (List Char × Buf R)) (i : Nat) =>
          match acc with
          | Except.error code => Except.error code
          | Except.ok (input, M) =>
            match fscanf_entry scan_lf input with
            | none => Except.error 1
            | some (v, rest) => Except.ok (rest, Function.update M i v))
        (Except.ok (text, M)) with
    | Except.error code => Except.error code
    | Except.ok (_, M) => Except.ok M

/-- The function `main` of `systolic_matrix_mul.c` from line 86 on, with the reading
of the two files: the root detects `N` in the first file, every process tests the
topology, the root reads both files with that `N`, and the run goes on as in `main`. -/
def main_from_files {R : Type} [CommRing R] (scan_lf : List Char → Option (R × List Char))
    (size : Nat) (Afile Bfile : Option (List Char)) (mem : World R) (fresh C : Buf R) :
    Outcome R :=
  match detect_matrix_size Afile with
  | Except.error code => Outcome.mk [] (Except.error code)
  | Except.ok N =>
    if topology_fails size N then Outcome.mk [] (Except.error 1)
    else
      match read_full_matrix scan_lf Afile fresh N with
      | Except.error code => Outcome.mk [] (Except.error code)
      | Except.ok A =>
        match read_full_matrix scan_lf Bfile fresh N with
        | Except.error code => Outcome.mk [] (Except.error code)
        | Except.ok B => main size N A B mem fresh C

/-- Follows the words of the specification, not the code: the pieces joined by single
separators. -/
def join_sep (sep : Char) : List (List Char) → List Char
  | [] => []
  | [x] => x
  | x :: y :: rest => x ++ sep :: join_sep sep (y :: rest)

/-- Follows the words of the specification, not the code: the text of a matrix file
without a newline after the last row, each row given by its fields. -/
def csv_text (rows : List (List (List Char))) : List Char :=
  join_sep '\n' (rows.map (join_sep ','))

/-- The conversion `%lf` on inputs whose numbers are unsigned decimal integers: it
skips white space and reads the digits that follow. -/
def scan_digits (input : List Char) : Option (Int × List Char) :=
  let s := input.dropWhile Char.isWhitespace
  let ds := s.takeWhile Char.isDigit
  if ds = [] then none
  else some (ds.foldl (fun v d => 10 * v + ((d.toNat : Int) - 48)) 0, s.dropWhile Char.isDigit)

/-- The file with the two rows `1,2` and `3,4`, each ended by a newline. -/
def sampleFile2x2 : List Char := ['1', ',', '2', '\n', '3', ',', '4', '\n']

/-- The file with the single row `1,2,3,4` ended by a newline. -/
def sampleFile1x4 : List Char := ['1', ',', '2', ',', '3', ',', '4', '\n']

end Systolic

namespace Systolic

/-- The rows `1,2` and `3,4`, each given by its fields. -/
def sampleRows2 : List (List (List Char)) := [[['1'], ['2']], [['3'], ['4']]]

end Systolic

open MatrixGenerator Systolic

/-! ## The generator's size adjustment -/

theorem adjust_size_cases (base threads : Int) (hb : 0 < base) (ht : 0 < threads) :
    ∃ q r : Int, base = threads * q + r ∧ 0 ≤ q ∧ 0 ≤ r ∧ r < threads ∧
      adjust_size base threads =
        if r = 0 then base
        else if r ≤ threads - r then (if threads * q > 0 then threads * q else threads * (q + 1))
        else threads * (q + 1) := by
  refine ⟨base / threads, base % threads, ?_, ?_, ?_, ?_, ?_⟩
  · exact (Int.ediv_add_emod base threads).symm
  · exact Int.ediv_nonneg hb.le ht.le
  · exact Int.emod_nonneg _ ht.ne'
  · exact Int.emod_lt_of_pos _ ht
  · have hm : base.tmod threads = base % threads := Int.tmod_eq_emod hb.le ht.le
    have hd : base - base % threads = threads * (base / threads) := by
      have := Int.ediv_add_emod base threads
      omega
    have hu : base + (threads - base % threads) = threads * (base / threads + 1) := by
      rw [mul_add, ← hd]; ring
    simp only [adjust_size, hm, hd, hu]
    have e1 : base - threads * (base / threads) = base % threads := by omega
    have e2 : threads * (base / threads + 1) - base = threads - base % threads := by
      rw [← hu]; ring
    rw [e1, e2]

/-- C4 (as the code behaves): at the tie `base = 6`, `threads = 4` (`6 mod 4 = 4 - 6 mod 4`)
`adjust_size` returns the lower multiple 4, not the upper multiple
`6 + (4 - 6 mod 4) = 8`. -/
theorem adjust_size_tie_6_4 :
    (6 : Int).tmod 4 = 4 - (6 : Int).tmod 4 ∧ adjust_size 6 4 = 4 ∧
      adjust_size 6 4 ≠ 6 + (4 - (6 : Int).tmod 4) := by
  decide

/-- C5: for `base > 0` and `threads > 0`, `adjust_size base threads` is strictly
positive and divisible by `threads`; and for every `p ≥ 1` the size
`N = adjust_size base (p * p)` is a positive natural number for which the topology
test of the engine run on `p * p` processes does not fail: `round_sqrt (p * p) = p`
and `N mod p = 0`. -/
theorem adjust_size_meets_topology (base : Int) (hb : 0 < base) :
    (∀ threads : Int, 0 < threads →
      0 < adjust_size base threads ∧ threads ∣ adjust_size base threads) ∧
    (∀ p : Nat, 1 ≤ p →
      ((adjust_size base ((p * p : Nat) : Int)).toNat : Int) = adjust_size base ((p * p : Nat) : Int) ∧
      round_sqrt (p * p) = p ∧
      (adjust_size base ((p * p : Nat) : Int)).toNat % p = 0 ∧
      topology_fails (p * p) (adjust_size base ((p * p : Nat) : Int)).toNat = false) := by
  have key : ∀ threads : Int, 0 < threads →
      0 < adjust_size base threads ∧ threads ∣ adjust_size base threads := by
    intro threads ht
    obtain ⟨q, r, hbase, hq, hr0, hrt, hres⟩ := adjust_size_cases base threads hb ht
    rw [hres]
    have hq1 : 0 < threads * (q + 1) := mul_pos ht (by omega)
    by_cases h0 : r = 0
    · subst h0
      simp only [if_true]
      exact ⟨hb, ⟨q, by omega⟩⟩
    · simp only [h0, if_false]
      split_ifs with h1 h2
      · exact ⟨h2, dvd_mul_right _ _⟩
      · exact ⟨hq1, dvd_mul_right _ _⟩
      · exact ⟨hq1, dvd_mul_right _ _⟩
  refine ⟨key, ?_⟩
  intro p hp
  have hpp : (0 : Int) < ((p * p : Nat) : Int) := by
    have : 0 < p * p := Nat.mul_pos hp hp
    exact_mod_cast this
  obtain ⟨hpos, hdvd⟩ := key _ hpp
  have hcast : ((adjust_size base ((p * p : Nat) : Int)).toNat : Int)
      = adjust_size base ((p * p : Nat) : Int) := Int.toNat_of_nonneg hpos.le
  have hrs : round_sqrt (p * p) = p := by
    simp [round_sqrt, Nat.sqrt_eq]
  have hmod : (adjust_size base ((p * p : Nat) : Int)).toNat % p = 0 := by
    have h1 : ((p * p : Nat) : Int) ∣ ((adjust_size base ((p * p : Nat) : Int)).toNat : Int) := by
      rw [hcast]; exact hdvd
    have h2 : p * p ∣ (adjust_size base ((p * p : Nat) : Int)).toNat := Int.natCast_dvd_natCast.mp h1
    exact Nat.mod_eq_zero_of_dvd (Dvd.dvd.trans (dvd_mul_right p p) h2)
  refine ⟨hcast, hrs, hmod, ?_⟩
  unfold topology_fails
  simp only [hrs, hmod]
  simp

/-- Instance of C5 at `base = 10`, `threads = 4`, `p = 2`. -/
theorem adjust_size_meets_topology_witness :
    (0 < adjust_size 10 4 ∧ (4 : Int) ∣ adjust_size 10 4) ∧
      (((adjust_size 10 ((2 * 2 : Nat) : Int)).toNat : Int) = adjust_size 10 ((2 * 2 : Nat) : Int) ∧
      round_sqrt (2 * 2) = 2 ∧
      (adjust_size 10 ((2 * 2 : Nat) : Int)).toNat % 2 = 0 ∧
      topology_fails (2 * 2) (adjust_size 10 ((2 * 2 : Nat) : Int)).toNat = false) :=
  ⟨(adjust_size_meets_topology 10 (by decide)).1 4 (by decide),
   (adjust_size_meets_topology 10 (by decide)).2 2 (by decide)⟩

/-! ## The topology test -/

theorem round_sqrt_sq (q : Nat) : round_sqrt (q * q) = q := by
  simp [round_sqrt, Nat.sqrt_eq]

theorem topology_fails_eq_false_iff (size N : Nat) :
    topology_fails size N = false ↔
      round_sqrt size * round_sqrt size = size ∧ N % round_sqrt size = 0 := by
  simp [topology_fails]

/-- C6: for `size ≥ 1` processes and side `N ≥ 1`, the topology test lets the run
proceed exactly when `size` is a perfect square whose integer square root divides
`N`; then `p * p = size` and `bs = N / p` satisfies `p * bs = N` for `p = round_sqrt size`,
and the run distributes, executes its stages and writes a matrix; otherwise the run
ends with `MPI_Abort` code 1 and nothing else has happened. -/
theorem topology_check {R : Type} [CommRing R] (size N : Nat) (_hs : 1 ≤ size)
    (_hN : 1 ≤ N) (A B : Buf R) (mem : World R) (fresh C : Buf R) :
    (topology_fails size N = false ↔ (∃ q, q * q = size) ∧ Nat.sqrt size ∣ N) ∧
    (topology_fails size N = false →
      round_sqrt size * round_sqrt size = size ∧
      round_sqrt size * (N / round_sqrt size) = N ∧
      ∃ Cfull, Systolic.main size N A B mem fresh C =
        Outcome.mk ([Event.distribute] ++ (List.range (stages (round_sqrt size))).map Event.stage
          ++ [Event.write_full_matrix]) (Except.ok Cfull)) ∧
    (topology_fails size N = true →
      Systolic.main size N A B mem fresh C = Outcome.mk [] (Except.error 1)) := by
  refine ⟨?_, ?_, ?_⟩
  · rw [topology_fails_eq_false_iff]
    constructor
    · rintro ⟨h1, h2⟩
      refine ⟨⟨_, h1⟩, ?_⟩
      have : Nat.sqrt size = round_sqrt size := by
        conv_lhs => rw [← h1]
        exact Nat.sqrt_eq _
      rw [this]
      exact Nat.dvd_of_mod_eq_zero h2
    · rintro ⟨⟨q, hq⟩, h2⟩
      subst hq
      rw [Nat.sqrt_eq] at h2
      rw [round_sqrt_sq]
      exact ⟨rfl, Nat.mod_eq_zero_of_dvd h2⟩
  · intro h
    have h' := (topology_fails_eq_false_iff size N).1 h
    refine ⟨h'.1, Nat.mul_div_cancel' (Nat.dvd_of_mod_eq_zero h'.2), ?_⟩
    simp only [Systolic.main, h]
    exact ⟨_, rfl⟩
  · intro h
    simp only [Systolic.main, h, if_true]

/-- Instance of C6 at 4 processes and side 6. -/
theorem topology_check_witness :
    1 ≤ 4 ∧ 1 ≤ 6 ∧
    (topology_fails 4 6 = false ↔ (∃ q, q * q = 4) ∧ Nat.sqrt 4 ∣ 6) ∧
    (topology_fails 4 6 = false →
      round_sqrt 4 * round_sqrt 4 = 4 ∧
      round_sqrt 4 * (6 / round_sqrt 4) = 6 ∧
      ∃ Cfull, Systolic.main 4 6 sampleA4 sampleI4 sampleMem sampleFresh sampleFresh =
        Outcome.mk ([Event.distribute] ++ (List.range (stages (round_sqrt 4))).map Event.stage
          ++ [Event.write_full_matrix]) (Except.ok Cfull)) ∧
    (topology_fails 4 6 = true →
      Systolic.main 4 6 sampleA4 sampleI4 sampleMem sampleFresh sampleFresh =
        Outcome.mk [] (Except.error 1)) :=
  ⟨by decide, by decide,
    topology_check 4 6 (by decide) (by decide) sampleA4 sampleI4 sampleMem sampleFresh
      sampleFresh⟩

/-! ## Loops -/

/-- Invariant rule for a counted loop `for (m = 0; m < n; ++m) s = f s m`. -/
theorem foldl_range_inv {σ : Type} (f : σ → Nat → σ) (P : Nat → σ → Prop) (init : σ)
    (n : Nat) (h0 : P 0 init) (hstep : ∀ m s, m < n → P m s → P (m + 1) (f s m)) :
    P n ((List.range n).foldl f init) := by
  induction n with
  | zero => simpa using h0
  | succ n ih =>
    rw [List.range_succ, List.foldl_append]
    simp only [List.foldl_cons, List.foldl_nil]
    exact hstep n _ (Nat.lt_succ_self n)
      (ih (fun m s hm hP => hstep m s (Nat.lt_succ_of_lt hm) hP))

theorem foldl_flatMap {α β σ : Type} (f : σ → β → σ) (g : α → List β) (l : List α) (init : σ) :
    (l.flatMap g).foldl f init = l.foldl (fun s a => (g a).foldl f s) init := by
  induction l generalizing init with
  | nil => rfl
  | cons a l ih => simp [List.flatMap_cons, List.foldl_append, ih]

theorem foldl_map_list {α β σ : Type} (f : σ → β → σ) (g : α → β) (l : List α) (init : σ) :
    (l.map g).foldl f init = l.foldl (fun s a => f s (g a)) init := by
  induction l generalizing init with
  | nil => rfl
  | cons a l ih => simp [ih]

/-! ## Index arithmetic -/

theorem idx_div (bs i j : Nat) (hj : j < bs) : (i * bs + j) / bs = i := by
  have hbs : 0 < bs := Nat.lt_of_le_of_lt (Nat.zero_le _) hj
  rw [Nat.mul_comm, Nat.mul_add_div hbs, Nat.div_eq_of_lt hj, Nat.add_zero]

theorem idx_mod (bs i j : Nat) (hj : j < bs) : (i * bs + j) % bs = j := by
  rw [Nat.mul_comm, Nat.mul_add_mod, Nat.mod_eq_of_lt hj]

theorem idx_lt (p bs i j : Nat) (hi : i < p) (hj : j < bs) : i * bs + j < p * bs := by
  have h1 : (i + 1) * bs ≤ p * bs := Nat.mul_le_mul_right bs hi
  have h2 : (i + 1) * bs = i * bs + bs := Nat.succ_mul i bs
  omega

theorem idx_decomp (bs x : Nat) : (x / bs) * bs + x % bs = x := by
  rw [Nat.mul_comm]; exact Nat.div_add_mod x bs

theorem idx_div_lt (p bs x : Nat) (hx : x < p * bs) : x / bs < p := by
  rw [Nat.mul_comm] at hx
  exact Nat.div_lt_of_lt_mul hx

/-! ## The tile product -/

theorem dgemm_j_loop {R : Type} [CommRing R] (bs i k n : Nat) (t : Tile R) :
    let T := (List.range n).foldl (fun t j => dgemm_body bs i k j t) t
    T.A = t.A ∧ T.B = t.B ∧
      ∀ x, T.C x = if i * bs ≤ x ∧ x < i * bs + n
        then t.C x + t.A (i * bs + k) * t.B (k * bs + (x - i * bs)) else t.C x := by
  refine foldl_range_inv (fun t j => dgemm_body bs i k j t)
    (fun m T => T.A = t.A ∧ T.B = t.B ∧
      ∀ x, T.C x = if i * bs ≤ x ∧ x < i * bs + m
        then t.C x + t.A (i * bs + k) * t.B (k * bs + (x - i * bs)) else t.C x) t n ?_ ?_
  · refine ⟨rfl, rfl, fun x => ?_⟩
    rw [if_neg (by omega)]
  · rintro m s _ ⟨hA, hB, hC⟩
    refine ⟨hA, hB, fun x => ?_⟩
    simp only [dgemm_body, Function.update_apply, hA, hB]
    by_cases hx : x = i * bs + m
    · subst hx
      rw [if_pos rfl, hC, if_neg (by omega), if_pos (by omega)]
      simp
    · rw [if_neg hx, hC]
      by_cases h : i * bs ≤ x ∧ x < i * bs + m
      · rw [if_pos h, if_pos (by omega)]
      · rw [if_neg h, if_neg (by omega)]

theorem dgemm_k_loop {R : Type} [CommRing R] (bs i n : Nat) (t : Tile R) :
    let T := (List.range n).foldl (fun t k =>
      (List.range bs).foldl (fun t j => dgemm_body bs i k j t) t) t
    T.A = t.A ∧ T.B = t.B ∧
      ∀ x, T.C x = if i * bs ≤ x ∧ x < i * bs + bs
        then t.C x + ∑ k ∈ Finset.range n, t.A (i * bs + k) * t.B (k * bs + (x - i * bs))
        else t.C x := by
  refine foldl_range_inv (fun t k => (List.range bs).foldl (fun t j => dgemm_body bs i k j t) t)
    (fun m T => T.A = t.A ∧ T.B = t.B ∧
      ∀ x, T.C x = if i * bs ≤ x ∧ x < i * bs + bs
        then t.C x + ∑ k ∈ Finset.range m, t.A (i * bs + k) * t.B (k * bs + (x - i * bs))
        else t.C x) t n ?_ ?_
  · refine ⟨rfl, rfl, fun x => ?_⟩
    simp
  · rintro m s _ ⟨hA, hB, hC⟩
    obtain ⟨jA, jB, jC⟩ := dgemm_j_loop bs i m bs s
    refine ⟨jA.trans hA, jB.trans hB, fun x => ?_⟩
    show ((List.range bs).foldl (fun t j => dgemm_body bs i m j t) s).C x = _
    rw [jC, hC, hA, hB]
    by_cases h : i * bs ≤ x ∧ x < i * bs + bs
    · simp only [if_pos h, Finset.sum_range_succ, add_assoc]
    · simp only [if_neg h]

theorem dgemm_i_loop {R : Type} [CommRing R] (bs n : Nat) (t : Tile R) :
    let T := (List.range n).foldl (fun t i =>
      (List.range bs).foldl (fun t k =>
        (List.range bs).foldl (fun t j => dgemm_body bs i k j t) t) t) t
    T.A = t.A ∧ T.B = t.B ∧
      ∀ x, T.C x = if x < n * bs
        then t.C x + ∑ k ∈ Finset.range bs, t.A ((x / bs) * bs + k) * t.B (k * bs + x % bs)
        else t.C x := by
  refine foldl_range_inv (fun t i => (List.range bs).foldl (fun t k =>
      (List.range bs).foldl (fun t j => dgemm_body bs i k j t) t) t)
    (fun m T => T.A = t.A ∧ T.B = t.B ∧
      ∀ x, T.C x = if x < m * bs
        then t.C x + ∑ k ∈ Finset.range bs, t.A ((x / bs) * bs + k) * t.B (k * bs + x % bs)
        else t.C x) t n ?_ ?_
  · refine ⟨rfl, rfl, fun x => ?_⟩
    simp
  · rintro m s _ ⟨hA, hB, hC⟩
    obtain ⟨kA, kB, kC⟩ := dgemm_k_loop bs m bs s
    refine ⟨kA.trans hA, kB.trans hB, fun x => ?_⟩
    show ((List.range bs).foldl (fun t k =>
      (List.range bs).foldl (fun t j => dgemm_body bs m k j t) t) s).C x = _
    rw [kC, hC, hA, hB]
    have hsm : (m + 1) * bs = m * bs + bs := Nat.succ_mul m bs
    by_cases h : m * bs ≤ x ∧ x < m * bs + bs
    · rw [if_pos h, if_neg (by omega), if_pos (by omega)]
      have hx : x = m * bs + (x - m * bs) := by omega
      have hlt : x - m * bs < bs := by omega
      have hd : x / bs = m := by rw [hx]; exact idx_div bs m (x - m * bs) hlt
      have hm : x % bs = x - m * bs := by
        conv_lhs => rw [hx]
        exact idx_mod bs m (x - m * bs) hlt
      rw [hd, hm]
    · rw [if_neg h]
      by_cases h2 : x < m * bs
      · rw [if_pos h2, if_pos (by omega)]
      · rw [if_neg h2, if_neg (by omega)]

/-- The effect of `dgemm_tile` on every cell of `C`. -/
theorem dgemm_tile_spec {R : Type} [CommRing R] (bs : Nat) (t : Tile R) :
    (dgemm_tile t bs).A = t.A ∧ (dgemm_tile t bs).B = t.B ∧
      ∀ x, (dgemm_tile t bs).C x = if x < bs * bs
        then t.C x + ∑ k ∈ Finset.range bs, t.A ((x / bs) * bs + k) * t.B (k * bs + x % bs)
        else t.C x :=
  dgemm_i_loop bs bs t

/-- C9: `dgemm_tile` accumulates: for `i, j < bs` the cell `C[i*bs + j]` afterwards is
its previous value plus the sum over `k < bs` of `A[i*bs + k] * B[k*bs + j]`, and the
blocks `A` and `B` are unchanged. -/
theorem dgemm_tile_accumulates {R : Type} [CommRing R] (bs : Nat) (t : Tile R)
    (i j : Nat) (hi : i < bs) (hj : j < bs) :
    (dgemm_tile t bs).C (i * bs + j) =
        t.C (i * bs + j) + ∑ k ∈ Finset.range bs, t.A (i * bs + k) * t.B (k * bs + j) ∧
      (dgemm_tile t bs).A = t.A ∧ (dgemm_tile t bs).B = t.B := by
  obtain ⟨hA, hB, hC⟩ := dgemm_tile_spec bs t
  refine ⟨?_, hA, hB⟩
  rw [hC, if_pos (idx_lt bs bs i j hi hj), idx_div bs i j hj, idx_mod bs i j hj]

/-- Instance of C9 at `bs = 2`, cell `(1, 0)`. -/
theorem dgemm_tile_accumulates_witness :
    1 < 2 ∧ 0 < 2 ∧
    (dgemm_tile (Tile.mk sampleA4 sampleI4 sampleFresh) 2).C (1 * 2 + 0) =
        sampleFresh (1 * 2 + 0)
          + ∑ k ∈ Finset.range 2, sampleA4 (1 * 2 + k) * sampleI4 (k * 2 + 0) ∧
      (dgemm_tile (Tile.mk sampleA4 sampleI4 sampleFresh) 2).A = sampleA4 ∧
      (dgemm_tile (Tile.mk sampleA4 sampleI4 sampleFresh) 2).B = sampleI4 :=
  ⟨by decide, by decide,
    dgemm_tile_accumulates 2 (Tile.mk sampleA4 sampleI4 sampleFresh) 1 0 (by decide) (by decide)⟩

/-! ## Band buffers -/

theorem idx_le (p bs i j : Nat) (hi : i < p) (hj : j ≤ bs) : i * bs + j ≤ p * bs := by
  have h1 : (i + 1) * bs ≤ p * bs := Nat.mul_le_mul_right bs hi
  have h2 : (i + 1) * bs = i * bs + bs := Nat.succ_mul i bs
  omega

/-- Closed form of a band buffer: block `k`, row `i` of the band is read from offset
`soff k i` of the source. -/
theorem band_fill {R : Type} (src dst : Buf R) (soff : Nat → Nat → Nat) (p bs : Nat) (x : Nat) :
    run_copies src ((List.range p).flatMap (fun k =>
        (List.range bs).map (fun i => Copy.mk (k * bs * bs + i * bs) (soff k i) bs))) dst x =
      if x < p * bs * bs then src (soff (x / bs / bs) (x / bs % bs) + x % bs) else dst x := by
  unfold run_copies
  rw [foldl_flatMap]
  simp only [foldl_map_list]
  revert x
  refine foldl_range_inv
    (fun s k => (List.range bs).foldl
      (fun buf i => memcpy buf (k * bs * bs + i * bs) src (soff k i) bs) s)
    (fun m buf => ∀ x, buf x =
      if x < m * bs * bs then src (soff (x / bs / bs) (x / bs % bs) + x % bs) else dst x)
    dst p ?_ ?_
  · intro x; simp
  · intro m s _ hs
    have inner : ∀ n, ∀ x, ((List.range n).foldl
        (fun buf i => memcpy buf (m * bs * bs + i * bs) src (soff m i) bs) s) x =
        if m * bs * bs ≤ x ∧ x < m * bs * bs + n * bs
        then src (soff m ((x - m * bs * bs) / bs) + (x - m * bs * bs) % bs) else s x := by
      intro n
      refine foldl_range_inv
        (fun buf i => memcpy buf (m * bs * bs + i * bs) src (soff m i) bs)
        (fun n buf => ∀ x, buf x =
          if m * bs * bs ≤ x ∧ x < m * bs * bs + n * bs
          then src (soff m ((x - m * bs * bs) / bs) + (x - m * bs * bs) % bs) else s x)
        s n ?_ ?_
      · intro x; rw [if_neg (by omega)]
      · intro n buf _ hbuf x
        have hsn : (n + 1) * bs = n * bs + bs := Nat.succ_mul n bs
        simp only [memcpy]
        by_cases h : m * bs * bs + n * bs ≤ x ∧ x < m * bs * bs + n * bs + bs
        · rw [if_pos h, if_pos (by omega)]
          have hlt : x - (m * bs * bs + n * bs) < bs := by omega
          have hy : x - m * bs * bs = n * bs + (x - (m * bs * bs + n * bs)) := by omega
          rw [hy, idx_div bs n _ hlt, idx_mod bs n _ hlt]
        · rw [if_neg h, hbuf x]
          by_cases h2 : m * bs * bs ≤ x ∧ x < m * bs * bs + n * bs
          · rw [if_pos h2, if_pos (by omega)]
          · rw [if_neg h2, if_neg (by omega)]
    intro x
    show ((List.range bs).foldl
        (fun buf i => memcpy buf (m * bs * bs + i * bs) src (soff m i) bs) s) x = _
    rw [inner bs x]
    have hsm : (m + 1) * bs * bs = m * bs * bs + bs * bs := by ring
    by_cases h : m * bs * bs ≤ x ∧ x < m * bs * bs + bs * bs
    · rw [if_pos h, if_pos (by omega)]
      have hbs : 0 < bs := by
        rcases Nat.eq_zero_or_pos bs with h0 | h0
        · subst h0; simp at h
        · exact h0
      have hylt : (x - m * bs * bs) / bs < bs := idx_div_lt bs bs _ (by omega)
      have hx : x = (m * bs + (x - m * bs * bs) / bs) * bs + (x - m * bs * bs) % bs := by
        have := idx_decomp bs (x - m * bs * bs)
        have e : (m * bs + (x - m * bs * bs) / bs) * bs
            = m * bs * bs + (x - m * bs * bs) / bs * bs := by ring
        omega
      have hmodlt : (x - m * bs * bs) % bs < bs := Nat.mod_lt _ hbs
      have hd : x / bs = m * bs + (x - m * bs * bs) / bs := by
        conv_lhs => rw [hx]
        exact idx_div bs _ _ hmodlt
      have hm : x % bs = (x - m * bs * bs) % bs := by
        conv_lhs => rw [hx]
        exact idx_mod bs _ _ hmodlt
      rw [hd, hm, idx_div bs m _ hylt, idx_mod bs m _ hylt]
    · rw [if_neg h, hs x]
      by_cases h2 : x < m * bs * bs
      · rw [if_pos h2, if_pos (by omega)]
      · rw [if_neg h2, if_neg (by omega)]

theorem band_index (bs k i j : Nat) (hi : i < bs) (hj : j < bs) :
    (k * bs * bs + i * bs + j) / bs / bs = k ∧ (k * bs * bs + i * bs + j) / bs % bs = i ∧
      (k * bs * bs + i * bs + j) % bs = j := by
  have e : k * bs * bs + i * bs + j = (k * bs + i) * bs + j := by ring
  rw [e, idx_div bs _ j hj, idx_mod bs _ j hj, idx_div bs k i hi, idx_mod bs k i hi]
  exact ⟨rfl, rfl, rfl⟩

theorem band_index_lt (p bs k i j : Nat) (hk : k < p) (hi : i < bs) (hj : j < bs) :
    k * bs * bs + i * bs + j < p * bs * bs := by
  have e : k * bs * bs + i * bs + j = (k * bs + i) * bs + j := by ring
  rw [e]
  exact idx_lt (p * bs) bs _ j (idx_lt p bs k i hk hi) hj

theorem build_rowbuf_apply {R : Type} (A fresh : Buf R) (N p bs r x : Nat) :
    build_rowbuf A N p bs r fresh x =
      if x < p * bs * bs then A ((r * bs + x / bs % bs) * N + x / bs / bs * bs + x % bs)
      else fresh x :=
  band_fill A fresh (fun k i => (r * bs + i) * N + k * bs) p bs x

theorem build_colbuf_apply {R : Type} (B fresh : Buf R) (N p bs c x : Nat) :
    build_colbuf B N p bs c fresh x =
      if x < p * bs * bs then B ((x / bs / bs * bs + x / bs % bs) * N + c * bs + x % bs)
      else fresh x :=
  band_fill B fresh (fun k i => (k * bs + i) * N + c * bs) p bs x

theorem mem_band_copies (soff : Nat → Nat → Nat) (p bs : Nat) (cp : Copy)
    (h : cp ∈ (List.range p).flatMap (fun k =>
        (List.range bs).map (fun i => Copy.mk (k * bs * bs + i * bs) (soff k i) bs))) :
    ∃ k i, k < p ∧ i < bs ∧ cp = Copy.mk (k * bs * bs + i * bs) (soff k i) bs := by
  simp only [List.mem_flatMap, List.mem_map, List.mem_range] at h
  obtain ⟨k, hk, i, hi, rfl⟩ := h
  exact ⟨k, i, hk, hi, rfl⟩

/-- C7: with `N = p * bs`, block `k` of the row band built for grid row `r` is the
sub-block `A[r,k]` and block `k` of the column band built for grid column `c` is the
sub-block `B[k,c]`; the cells involved lie inside the `N * N` source and the
`p * bs * bs` band, and so does every `memcpy` of the two copy loops. -/
theorem band_layout {R : Type} (p bs : Nat) (_hp : 1 ≤ p) (_hbs : 1 ≤ bs)
    (A B fresh : Buf R) (r c k i j : Nat) (hr : r < p) (hc : c < p) (hk : k < p)
    (hi : i < bs) (hj : j < bs) :
    build_rowbuf A (p * bs) p bs r fresh (k * bs * bs + i * bs + j)
        = A ((r * bs + i) * (p * bs) + k * bs + j) ∧
      build_colbuf B (p * bs) p bs c fresh (k * bs * bs + i * bs + j)
        = B ((k * bs + i) * (p * bs) + c * bs + j) ∧
      (r * bs + i) * (p * bs) + k * bs + j < (p * bs) * (p * bs) ∧
      (k * bs + i) * (p * bs) + c * bs + j < (p * bs) * (p * bs) ∧
      k * bs * bs + i * bs + j < p * bs * bs ∧
      (∀ cp ∈ rowbuf_copies (p * bs) p bs r,
        cp.dst + cp.len ≤ p * bs * bs ∧ cp.src + cp.len ≤ (p * bs) * (p * bs)) ∧
      (∀ cp ∈ colbuf_copies (p * bs) p bs c,
        cp.dst + cp.len ≤ p * bs * bs ∧ cp.src + cp.len ≤ (p * bs) * (p * bs)) := by
  obtain ⟨e1, e2, e3⟩ := band_index bs k i j hi hj
  have hlt := band_index_lt p bs k i j hk hi hj
  have hcell : ∀ a b u v : Nat, a < p → b < p → u < bs → v ≤ bs →
      (a * bs + u) * (p * bs) + (b * bs + v) ≤ (p * bs) * (p * bs) := by
    intro a b u v ha hb hu hv
    exact idx_le (p * bs) (p * bs) _ _ (idx_lt p bs a u ha hu) (idx_le p bs b v hb hv)
  have hdst : ∀ a u : Nat, a < p → u < bs → a * bs * bs + u * bs + bs ≤ p * bs * bs := by
    intro a u ha hu
    have e : a * bs * bs + u * bs + bs = (a * bs + u) * bs + bs := by ring
    rw [e]
    exact idx_le (p * bs) bs _ bs (idx_lt p bs a u ha hu) le_rfl
  refine ⟨?_, ?_, ?_, ?_, hlt, ?_, ?_⟩
  · rw [build_rowbuf_apply, if_pos hlt, e1, e2, e3]
  · rw [build_colbuf_apply, if_pos hlt, e1, e2, e3]
  · have := hcell r k i (j + 1) hr hk hi hj
    omega
  · have := hcell k c i (j + 1) hk hc hi hj
    omega
  · intro cp hcp
    obtain ⟨a, u, ha, hu, rfl⟩ :=
      mem_band_copies (fun k i => (r * bs + i) * (p * bs) + k * bs) p bs cp hcp
    refine ⟨hdst a u ha hu, ?_⟩
    have := hcell r a u bs hr ha hu le_rfl
    simp only
    omega
  · intro cp hcp
    obtain ⟨a, u, ha, hu, rfl⟩ :=
      mem_band_copies (fun k i => (k * bs + i) * (p * bs) + c * bs) p bs cp hcp
    refine ⟨hdst a u ha hu, ?_⟩
    have := hcell a c u bs ha hc hu le_rfl
    simp only
    omega

/-- Instance of C7 at `p = 2`, `bs = 2`, `r = 1`, `c = 0`, `k = 1`, cell `(0, 1)`. -/
theorem band_layout_witness :
    1 ≤ 2 ∧ 1 ≤ 2 ∧ 1 < 2 ∧ 0 < 2 ∧ 1 < 2 ∧ 0 < 2 ∧ 1 < 2 ∧
    (build_rowbuf sampleA4 (2 * 2) 2 2 1 sampleFresh (1 * 2 * 2 + 0 * 2 + 1)
        = sampleA4 ((1 * 2 + 0) * (2 * 2) + 1 * 2 + 1) ∧
      build_colbuf sampleI4 (2 * 2) 2 2 0 sampleFresh (1 * 2 * 2 + 0 * 2 + 1)
        = sampleI4 ((1 * 2 + 0) * (2 * 2) + 0 * 2 + 1) ∧
      (1 * 2 + 0) * (2 * 2) + 1 * 2 + 1 < (2 * 2) * (2 * 2) ∧
      (1 * 2 + 0) * (2 * 2) + 0 * 2 + 1 < (2 * 2) * (2 * 2) ∧
      1 * 2 * 2 + 0 * 2 + 1 < 2 * 2 * 2 ∧
      (∀ cp ∈ rowbuf_copies (2 * 2) 2 2 1,
        cp.dst + cp.len ≤ 2 * 2 * 2 ∧ cp.src + cp.len ≤ (2 * 2) * (2 * 2)) ∧
      (∀ cp ∈ colbuf_copies (2 * 2) 2 2 0,
        cp.dst + cp.len ≤ 2 * 2 * 2 ∧ cp.src + cp.len ≤ (2 * 2) * (2 * 2))) :=
  ⟨by decide, by decide, by decide, by decide, by decide, by decide, by decide,
    band_layout 2 2 (by decide) (by decide) sampleA4 sampleI4 sampleFresh 1 0 1 0 1
      (by decide) (by decide) (by decide) (by decide) (by decide)⟩

/-! ## Result collection -/

/-- The cells written by the `memcpy` of block row `ii` of the block `(a, b)` are
those whose row is `a * bs + ii` and whose column lies in block column `b`. -/
theorem block_range_iff (p bs a b ii x : Nat) (hbs : 0 < bs) (hb : b < p) (hii : ii < bs) :
    ((a * bs + ii) * (p * bs) + b * bs ≤ x ∧ x < (a * bs + ii) * (p * bs) + b * bs + bs) ↔
      (x / (p * bs) / bs = a ∧ x / (p * bs) % bs = ii ∧ x % (p * bs) / bs = b) := by
  constructor
  · rintro ⟨h1, h2⟩
    have hjj : x - ((a * bs + ii) * (p * bs) + b * bs) < bs := by omega
    have hcol : b * bs + (x - ((a * bs + ii) * (p * bs) + b * bs)) < p * bs :=
      idx_lt p bs b _ hb hjj
    have hx : x = (a * bs + ii) * (p * bs) + (b * bs + (x - ((a * bs + ii) * (p * bs) + b * bs))) := by
      omega
    have hd : x / (p * bs) = a * bs + ii := by
      conv_lhs => rw [hx]
      exact idx_div (p * bs) _ _ hcol
    have hm : x % (p * bs) = b * bs + (x - ((a * bs + ii) * (p * bs) + b * bs)) := by
      conv_lhs => rw [hx]
      exact idx_mod (p * bs) _ _ hcol
    rw [hd, hm]
    exact ⟨idx_div bs a ii hii, idx_mod bs a ii hii, idx_div bs b _ hjj⟩
  · rintro ⟨h1, h2, h3⟩
    have e1 := idx_decomp (p * bs) x
    have e2 := idx_decomp bs (x / (p * bs))
    have e3 := idx_decomp bs (x % (p * bs))
    rw [h1, h2] at e2
    rw [h3] at e3
    have hlt : x % (p * bs) % bs < bs := Nat.mod_lt _ hbs
    rw [← e2] at e1
    omega

theorem block_range_offset (p bs a b ii x : Nat) (hbs : 0 < bs) (hb : b < p) (hii : ii < bs)
    (h : (a * bs + ii) * (p * bs) + b * bs ≤ x ∧ x < (a * bs + ii) * (p * bs) + b * bs + bs) :
    x - ((a * bs + ii) * (p * bs) + b * bs) = x % (p * bs) % bs := by
  obtain ⟨h1, h2, h3⟩ := (block_range_iff p bs a b ii x hbs hb hii).1 h
  have e1 := idx_decomp (p * bs) x
  have e2 := idx_decomp bs (x / (p * bs))
  have e3 := idx_decomp bs (x % (p * bs))
  rw [h1, h2] at e2
  rw [h3] at e3
  rw [← e2] at e1
  omega

/-- The rank owning a cell determines, and is determined by, its block row and
block column. -/
theorem rank_decode (p bs x r : Nat) (hp : 0 < p) (hbs : 0 < bs) :
    (x / (p * bs) / bs = r / p ∧ x % (p * bs) / bs = r % p) ↔
      x / (p * bs) / bs * p + x % (p * bs) / bs = r := by
  have hN : 0 < p * bs := Nat.mul_pos hp hbs
  have hcol : x % (p * bs) / bs < p := idx_div_lt p bs _ (Nat.mod_lt _ hN)
  constructor
  · rintro ⟨h1, h2⟩
    rw [h1, h2]
    exact idx_decomp p r
  · intro h
    rw [← h]
    exact ⟨(idx_div p _ _ hcol).symm, (idx_mod p _ _ hcol).symm⟩

/-- Closed form of the copy loop that places one block into the output array. -/
theorem run_block_copies {R : Type} (src buf : Buf R) (p bs r x : Nat) (hp : 0 < p)
    (hbs : 0 < bs) :
    run_copies src (block_copies (p * bs) p bs r) buf x =
      if x / (p * bs) / bs * p + x % (p * bs) / bs = r
      then src (x / (p * bs) % bs * bs + x % (p * bs) % bs) else buf x := by
  have hrp : r % p < p := Nat.mod_lt _ hp
  have inner : ∀ n, n ≤ bs → ∀ x, ((List.range n).foldl (fun buf ii =>
      memcpy buf ((r / p * bs + ii) * (p * bs) + r % p * bs) src (ii * bs) bs) buf) x =
      if x / (p * bs) / bs = r / p ∧ x % (p * bs) / bs = r % p ∧ x / (p * bs) % bs < n
      then src (x / (p * bs) % bs * bs + x % (p * bs) % bs) else buf x := by
    intro n hn
    refine foldl_range_inv (fun buf ii =>
        memcpy buf ((r / p * bs + ii) * (p * bs) + r % p * bs) src (ii * bs) bs)
      (fun n b => ∀ x, b x =
        if x / (p * bs) / bs = r / p ∧ x % (p * bs) / bs = r % p ∧ x / (p * bs) % bs < n
        then src (x / (p * bs) % bs * bs + x % (p * bs) % bs) else buf x) buf n ?_ ?_
    · intro x; rw [if_neg (by omega)]
    · intro m b hm hb x
      have hmbs : m < bs := by omega
      simp only [memcpy]
      by_cases h : (r / p * bs + m) * (p * bs) + r % p * bs ≤ x ∧
          x < (r / p * bs + m) * (p * bs) + r % p * bs + bs
      · have hoff := block_range_offset p bs (r / p) (r % p) m x hbs hrp hmbs h
        obtain ⟨h1, h2, h3⟩ := (block_range_iff p bs (r / p) (r % p) m x hbs hrp hmbs).1 h
        rw [if_pos h, if_pos ⟨h1, h3, by omega⟩, hoff, h2]
      · rw [if_neg h, hb x]
        have hne : ¬ (x / (p * bs) / bs = r / p ∧ x / (p * bs) % bs = m ∧
            x % (p * bs) / bs = r % p) :=
          fun h' => h ((block_range_iff p bs (r / p) (r % p) m x hbs hrp hmbs).2 h')
        by_cases h2 : x / (p * bs) / bs = r / p ∧ x % (p * bs) / bs = r % p ∧
            x / (p * bs) % bs < m
        · rw [if_pos h2, if_pos ⟨h2.1, h2.2.1, by omega⟩]
        · rw [if_neg h2, if_neg]
          rintro ⟨g1, g2, g3⟩
          by_cases g4 : x / (p * bs) % bs = m
          · exact hne ⟨g1, g4, g2⟩
          · exact h2 ⟨g1, g2, by omega⟩
  unfold run_copies block_copies
  rw [foldl_map_list]
  show ((List.range bs).foldl (fun buf ii =>
      memcpy buf ((r / p * bs + ii) * (p * bs) + r % p * bs) src (ii * bs) bs) buf) x = _
  rw [inner bs le_rfl x]
  have hlt : x / (p * bs) % bs < bs := Nat.mod_lt _ hbs
  by_cases h : x / (p * bs) / bs * p + x % (p * bs) / bs = r
  · have h' := (rank_decode p bs x r hp hbs).2 h
    rw [if_pos h, if_pos ⟨h'.1, h'.2, hlt⟩]
  · rw [if_neg h, if_neg]
    rintro ⟨g1, g2, _⟩
    exact h ((rank_decode p bs x r hp hbs).1 ⟨g1, g2⟩)

theorem own_copies_eq (p bs : Nat) :
    own_copies (p * bs) bs = block_copies (p * bs) p bs 0 := by
  unfold own_copies block_copies
  simp [Nat.zero_div, Nat.zero_mod]

/-- Closed form of the whole collection loop run over the ranks below `n + 1`. -/
theorem collect_loop {R : Type} (p bs n : Nat) (hp : 0 < p) (hbs : 0 < bs)
    (Cblk : Nat → Buf R) (fresh C : Buf R) (x : Nat) :
    collect (n + 1) (p * bs) p bs Cblk fresh C x =
      if x / (p * bs) / bs * p + x % (p * bs) / bs < n + 1
      then Cblk (x / (p * bs) / bs * p + x % (p * bs) / bs)
        (x / (p * bs) % bs * bs + x % (p * bs) % bs)
      else C x := by
  unfold collect
  rw [Nat.add_sub_cancel, List.range'_eq_map_range, foldl_map_list]
  revert x
  refine foldl_range_inv
    (fun s a => run_copies (memcpy fresh 0 (Cblk (1 + a)) 0 (bs * bs))
      (block_copies (p * bs) p bs (1 + a)) s)
    (fun m buf => ∀ x, buf x =
      if x / (p * bs) / bs * p + x % (p * bs) / bs < m + 1
      then Cblk (x / (p * bs) / bs * p + x % (p * bs) / bs)
        (x / (p * bs) % bs * bs + x % (p * bs) % bs)
      else C x) _ n ?_ ?_
  · intro x
    rw [own_copies_eq p bs, run_block_copies _ _ p bs 0 x hp hbs]
    by_cases h : x / (p * bs) / bs * p + x % (p * bs) / bs = 0
    · rw [if_pos h, if_pos (by omega), h]
    · rw [if_neg h, if_neg (by have := Nat.pos_of_ne_zero h; omega)]
  · intro m s _ hs x
    show run_copies (memcpy fresh 0 (Cblk (1 + m)) 0 (bs * bs))
      (block_copies (p * bs) p bs (1 + m)) s x = _
    rw [run_block_copies _ _ p bs (1 + m) x hp hbs]
    by_cases h : x / (p * bs) / bs * p + x % (p * bs) / bs = 1 + m
    · rw [if_pos h, if_pos (by omega), h]
      have hcell : x / (p * bs) % bs * bs + x % (p * bs) % bs < bs * bs :=
        idx_lt bs bs _ _ (Nat.mod_lt _ hbs) (Nat.mod_lt _ hbs)
      simp only [memcpy]
      rw [if_pos ⟨Nat.zero_le _, by omega⟩]
      simp
    · rw [if_neg h, hs x]
      by_cases h2 : x / (p * bs) / bs * p + x % (p * bs) / bs < m + 1
      · rw [if_pos h2, if_pos (by omega)]
      · rw [if_neg h2, if_neg (by omega)]

/-- Decoding the cell `(row*bs + ii, col*bs + jj)` of the output array. -/
theorem cell_decode (p bs row col ii jj : Nat) (hcol : col < p) (hii : ii < bs)
    (hjj : jj < bs) :
    ((row * bs + ii) * (p * bs) + col * bs + jj) / (p * bs) / bs = row ∧
      ((row * bs + ii) * (p * bs) + col * bs + jj) / (p * bs) % bs = ii ∧
      ((row * bs + ii) * (p * bs) + col * bs + jj) % (p * bs) / bs = col ∧
      ((row * bs + ii) * (p * bs) + col * bs + jj) % (p * bs) % bs = jj := by
  have hc : col * bs + jj < p * bs := idx_lt p bs col jj hcol hjj
  have e : (row * bs + ii) * (p * bs) + col * bs + jj
      = (row * bs + ii) * (p * bs) + (col * bs + jj) := by ring
  rw [e, idx_div (p * bs) _ _ hc, idx_mod (p * bs) _ _ hc]
  exact ⟨idx_div bs row ii hii, idx_mod bs row ii hii, idx_div bs col jj hjj,
    idx_mod bs col jj hjj⟩

theorem mem_cells (c : Copy) (x : Nat) : x ∈ c.cells ↔ c.dst ≤ x ∧ x < c.dst + c.len := by
  simp only [Copy.cells, List.mem_map, List.mem_range]
  constructor
  · rintro ⟨a, ha, rfl⟩; omega
  · rintro ⟨h1, h2⟩; exact ⟨x - c.dst, by omega, by omega⟩

theorem nodup_cells (c : Copy) : c.cells.Nodup :=
  List.Nodup.map (fun _ _ h => Nat.add_left_cancel h) (List.nodup_range _)

theorem mem_block_cells (p bs r x : Nat) (hp : 0 < p) (hbs : 0 < bs) :
    x ∈ (block_copies (p * bs) p bs r).flatMap Copy.cells ↔
      x / (p * bs) / bs * p + x % (p * bs) / bs = r := by
  have hrp : r % p < p := Nat.mod_lt _ hp
  rw [← rank_decode p bs x r hp hbs]
  unfold block_copies
  rw [List.flatMap_map]
  simp only [List.mem_flatMap, List.mem_range, mem_cells]
  constructor
  · rintro ⟨ii, hii, h⟩
    obtain ⟨h1, _, h3⟩ := (block_range_iff p bs (r / p) (r % p) ii x hbs hrp hii).1 h
    exact ⟨h1, h3⟩
  · rintro ⟨h1, h3⟩
    have hlt : x / (p * bs) % bs < bs := Nat.mod_lt _ hbs
    exact ⟨_, hlt, (block_range_iff p bs (r / p) (r % p) _ x hbs hrp hlt).2 ⟨h1, rfl, h3⟩⟩

theorem nodup_block_cells (p bs r : Nat) (hp : 0 < p) (hbs : 0 < bs) :
    ((block_copies (p * bs) p bs r).flatMap Copy.cells).Nodup := by
  have hrp : r % p < p := Nat.mod_lt _ hp
  unfold block_copies
  rw [List.flatMap_map, List.nodup_flatMap]
  refine ⟨fun _ _ => nodup_cells _, ?_⟩
  refine List.Nodup.pairwise_of_forall_ne (List.nodup_range _) ?_
  intro a ha b hb hab
  rw [List.mem_range] at ha hb
  show List.Disjoint _ _
  rw [List.disjoint_left]
  intro x hxa hxb
  rw [mem_cells] at hxa hxb
  obtain ⟨_, h2, _⟩ := (block_range_iff p bs (r / p) (r % p) a x hbs hrp ha).1 hxa
  obtain ⟨_, h2', _⟩ := (block_range_iff p bs (r / p) (r % p) b x hbs hrp hb).1 hxb
  exact hab (h2.symm.trans h2')

theorem collect_writes_eq (n N p bs : Nat) :
    collect_writes (n + 1) N p bs =
      (List.range (n + 1)).flatMap (fun r => (block_copies N p bs r).flatMap Copy.cells) := by
  have e : own_copies N bs = block_copies N p bs 0 := by
    unfold own_copies block_copies
    simp [Nat.zero_div, Nat.zero_mod]
  unfold collect_writes
  rw [e, Nat.add_sub_cancel, List.range_eq_range', List.range'_succ, List.flatMap_cons]

theorem rank_lt_iff (p bs x : Nat) (hp : 0 < p) (hbs : 0 < bs) :
    x / (p * bs) / bs * p + x % (p * bs) / bs < p * p ↔ x < (p * bs) * (p * bs) := by
  have hN : 0 < p * bs := Nat.mul_pos hp hbs
  have hcol : x % (p * bs) / bs < p := idx_div_lt p bs _ (Nat.mod_lt _ hN)
  constructor
  · intro h
    have h1 : x / (p * bs) / bs < p := by
      by_contra hc
      have := Nat.mul_le_mul_right p (Nat.le_of_not_lt hc)
      exact absurd (Nat.lt_of_le_of_lt (Nat.le_add_right _ _) h) (Nat.not_lt.mpr this)
    have h2 : x / (p * bs) < p * bs := by
      rw [← idx_decomp bs (x / (p * bs))]
      exact idx_lt p bs _ _ h1 (Nat.mod_lt _ hbs)
    rw [← idx_decomp (p * bs) x]
    exact idx_lt (p * bs) (p * bs) _ _ h2 (Nat.mod_lt _ hN)
  · intro h
    exact idx_lt p p _ _ (idx_div_lt p bs _ (idx_div_lt (p * bs) (p * bs) x h)) hcol

theorem collect_writes_perm (p bs : Nat) (hp : 0 < p) (hbs : 0 < bs) :
    (collect_writes (p * p) (p * bs) p bs).Perm (List.range ((p * bs) * (p * bs))) := by
  obtain ⟨n, hn⟩ : ∃ n, p * p = n + 1 := ⟨p * p - 1, by have := Nat.mul_pos hp hp; omega⟩
  have hnodup : (collect_writes (p * p) (p * bs) p bs).Nodup := by
    rw [hn, collect_writes_eq, List.nodup_flatMap]
    refine ⟨fun r _ => nodup_block_cells p bs r hp hbs, ?_⟩
    refine List.Nodup.pairwise_of_forall_ne (List.nodup_range _) ?_
    intro a _ b _ hab
    show List.Disjoint _ _
    rw [List.disjoint_left]
    intro x hxa hxb
    rw [mem_block_cells p bs _ x hp hbs] at hxa hxb
    exact hab (hxa.symm.trans hxb)
  rw [List.perm_ext_iff_of_nodup hnodup (List.nodup_range _)]
  intro x
  rw [List.mem_range, ← rank_lt_iff p bs x hp hbs, hn, collect_writes_eq]
  simp only [List.mem_flatMap, List.mem_range]
  constructor
  · rintro ⟨r, hr, hx⟩
    rw [← List.mem_flatMap, mem_block_cells p bs r x hp hbs] at hx
    omega
  · intro h
    refine ⟨_, h, ?_⟩
    rw [← List.mem_flatMap, mem_block_cells p bs _ x hp hbs]

/-- C8: with `N = p * bs` and `p * p` processes, the collected array holds cell
`(ii, jj)` of the accumulator of rank `row * p + col` at `(row*bs + ii)*N + col*bs + jj`;
the cells written are, in some order, each of the `N * N` cells exactly once; and
collecting the blocks into which a matrix `M` is split gives back `M`. -/
theorem collect_reassembles {R : Type} (p bs : Nat) (hp : 1 ≤ p) (hbs : 1 ≤ bs)
    (Cblk : Nat → Buf R) (fresh C M : Buf R) (row col ii jj x : Nat)
    (hrow : row < p) (hcol : col < p) (hii : ii < bs) (hjj : jj < bs)
    (hx : x < (p * bs) * (p * bs)) :
    collect (p * p) (p * bs) p bs Cblk fresh C ((row * bs + ii) * (p * bs) + col * bs + jj)
        = Cblk (row * p + col) (ii * bs + jj) ∧
      (collect_writes (p * p) (p * bs) p bs).Perm (List.range ((p * bs) * (p * bs))) ∧
      collect (p * p) (p * bs) p bs (fun rank => split_block M (p * bs) p bs rank) fresh C x
        = M x := by
  obtain ⟨n, hn⟩ : ∃ n, p * p = n + 1 := ⟨p * p - 1, by have := Nat.mul_pos hp hp; omega⟩
  refine ⟨?_, collect_writes_perm p bs hp hbs, ?_⟩
  · obtain ⟨d1, d2, d3, d4⟩ := cell_decode p bs row col ii jj hcol hii hjj
    rw [hn, collect_loop p bs n hp hbs, d1, d2, d3, d4, ← hn, if_pos (idx_lt p p row col hrow hcol)]
  · have hr := (rank_lt_iff p bs x hp hbs).2 hx
    have hN : 0 < p * bs := Nat.mul_pos hp hbs
    have hc : x % (p * bs) / bs < p := idx_div_lt p bs _ (Nat.mod_lt _ hN)
    rw [hn, collect_loop p bs n hp hbs, ← hn, if_pos hr]
    simp only [split_block, sub_block]
    rw [idx_div p _ _ hc, idx_mod p _ _ hc, idx_div bs _ _ (Nat.mod_lt _ hbs),
      idx_mod bs _ _ (Nat.mod_lt _ hbs), idx_decomp bs, Nat.add_assoc, idx_decomp bs,
      idx_decomp (p * bs)]

/-- Instance of C8 at `p = 2`, `bs = 2`, block `(1, 0)`, cell `(1, 0)`. -/
theorem collect_reassembles_witness :
    1 ≤ 2 ∧ 1 ≤ 2 ∧ 1 < 2 ∧ 0 < 2 ∧ 1 < 2 ∧ 0 < 2 ∧ 5 < (2 * 2) * (2 * 2) ∧
    (collect (2 * 2) (2 * 2) 2 2 (fun r => (sampleMem r).Ablk) sampleFresh sampleI4
        ((1 * 2 + 1) * (2 * 2) + 0 * 2 + 0)
        = (sampleMem (1 * 2 + 0)).Ablk (1 * 2 + 0) ∧
      (collect_writes (2 * 2) (2 * 2) 2 2).Perm (List.range ((2 * 2) * (2 * 2))) ∧
      collect (2 * 2) (2 * 2) 2 2 (fun rank => split_block sampleA4 (2 * 2) 2 2 rank)
        sampleFresh sampleI4 5 = sampleA4 5) :=
  ⟨by decide, by decide, by decide, by decide, by decide, by decide, by decide,
    collect_reassembles 2 2 (by decide) (by decide) (fun r => (sampleMem r).Ablk) sampleFresh
      sampleI4 sampleA4 1 0 1 0 5 (by decide) (by decide) (by decide) (by decide) (by decide)⟩

/-! ## The stages at which a process multiplies -/

theorem calls_stage {R : Type} [CommRing R] (p bs s rank : Nat) (g : World R) :
    (stage p bs s g rank).calls = (g rank).calls ++
      (if 0 ≤ contribution_index s (rank / p) (rank % p) ∧
          contribution_index s (rank / p) (rank % p) < (p : Int) then [s] else []) := by
  unfold stage stage_compute
  by_cases h : 0 ≤ contribution_index s (rank / p) (rank % p) ∧
      contribution_index s (rank / p) (rank % p) < (p : Int)
  · simp only [if_pos h]
    rfl
  · simp only [if_neg h, List.append_nil]
    rfl

theorem calls_run_stages {R : Type} [CommRing R] (p bs n rank : Nat) (g : World R) :
    (run_stages p bs n g rank).calls = (g rank).calls ++
      (List.range n).filter (fun s =>
        decide (0 ≤ contribution_index s (rank / p) (rank % p) ∧
          contribution_index s (rank / p) (rank % p) < (p : Int))) := by
  unfold run_stages
  refine foldl_range_inv (fun g s => stage p bs s g)
    (fun m w => (w rank).calls = (g rank).calls ++
      (List.range m).filter (fun s =>
        decide (0 ≤ contribution_index s (rank / p) (rank % p) ∧
          contribution_index s (rank / p) (rank % p) < (p : Int)))) g n ?_ ?_
  · simp
  · intro m w _ hw
    show (stage p bs m w rank).calls = _
    rw [calls_stage, hw, List.range_succ, List.filter_append, List.append_assoc]
    congr 1
    by_cases h : 0 ≤ contribution_index m (rank / p) (rank % p) ∧
        contribution_index m (rank / p) (rank % p) < (p : Int)
    · simp [h]
    · simp [h]

/-- The stages below `n` inside the contribution window of a process with
`my_row + my_col = a`. -/
theorem window_filter (p a n : Nat) (row col : Nat) (ha : row + col = a) :
    (List.range n).filter (fun s =>
        decide (0 ≤ contribution_index s row col ∧ contribution_index s row col < (p : Int)))
      = List.range' a (min n (a + p) - a) := by
  induction n with
  | zero => simp
  | succ n ih =>
    rw [List.range_succ, List.filter_append, ih]
    by_cases h : a ≤ n ∧ n < a + p
    · have hw : 0 ≤ contribution_index n row col ∧ contribution_index n row col < (p : Int) := by
        unfold contribution_index; omega
      have e1 : min (n + 1) (a + p) - a = (min n (a + p) - a) + 1 := by omega
      have e2 : a + 1 * (min n (a + p) - a) = n := by omega
      rw [e1, List.range'_concat, e2]
      simp [hw]
    · have hw : ¬ (0 ≤ contribution_index n row col ∧ contribution_index n row col < (p : Int)) := by
        unfold contribution_index; omega
      have e1 : min (n + 1) (a + p) - a = min n (a + p) - a := by omega
      rw [e1]
      simp [hw]

theorem calls_after {R : Type} [CommRing R] (p bs n row col : Nat) (hcol : col < p)
    (g : World R) (hg : (g (row * p + col)).calls = []) :
    (run_stages p bs n g (row * p + col)).calls
      = List.range' (row + col) (min n (row + col + p) - (row + col)) := by
  rw [calls_run_stages, hg, List.nil_append, idx_div p row col hcol, idx_mod p row col hcol]
  exact window_filter p (row + col) n row col rfl

theorem startup_calls {R : Type} [CommRing R] (N p bs : Nat) (A B fresh : Buf R)
    (mem : World R) (rank : Nat) : (startup N p bs A B fresh mem rank).calls = [] := rfl

/-- C3: in a run on a `p × p` grid the process `(row, col)` calls `dgemm_tile` in
exactly `p` of the stages `0 .. 3p-3`, namely in the stages `row + col + k` for
`k = 0, .., p - 1` in this order, so `s ↦ s - row - col` maps the stages with a call
one-to-one onto `0, .., p - 1`. -/
theorem dgemm_calls_once_per_k {R : Type} [CommRing R] (p bs : Nat) (hp : 1 ≤ p)
    (A B fresh : Buf R) (mem : World R) (row col : Nat) (hrow : row < p) (hcol : col < p) :
    ((run_stages p bs (stages p) (startup (p * bs) p bs A B fresh mem)) (row * p + col)).calls.length
        = p ∧
      ((run_stages p bs (stages p) (startup (p * bs) p bs A B fresh mem)) (row * p + col)).calls
        = (List.range p).map (fun k => row + col + k) ∧
      ((run_stages p bs (stages p) (startup (p * bs) p bs A B fresh mem))
          (row * p + col)).calls.map (fun s => contribution_index s row col)
        = (List.range p).map (fun k : Nat => (k : Int)) ∧
      ((run_stages p bs (stages p) (startup (p * bs) p bs A B fresh mem)) (row * p + col)).calls.Nodup ∧
      (∀ s ∈ ((run_stages p bs (stages p) (startup (p * bs) p bs A B fresh mem))
          (row * p + col)).calls, s < stages p) := by
  have hc := calls_after p bs (stages p) row col hcol (startup (p * bs) p bs A B fresh mem)
    (startup_calls _ _ _ _ _ _ _ _)
  have hlen : min (stages p) (row + col + p) - (row + col) = p := by
    unfold stages; omega
  rw [hlen] at hc
  rw [hc]
  refine ⟨by simp, List.range'_eq_map_range _ _, ?_, List.nodup_range' _ _, ?_⟩
  · rw [List.range'_eq_map_range, List.map_map]
    apply List.map_congr_left
    intro k _
    simp only [Function.comp, contribution_index]
    omega
  · intro s hs
    rw [List.mem_range'_1] at hs
    unfold stages; omega

/-- Instance of C3 at `p = 2`, process `(1, 1)`. -/
theorem dgemm_calls_once_per_k_witness :
    1 ≤ 2 ∧ 1 < 2 ∧ 1 < 2 ∧
    (((run_stages 2 2 (stages 2) (startup (2 * 2) 2 2 sampleA4 sampleI4 sampleFresh sampleMem))
        (1 * 2 + 1)).calls.length = 2 ∧
      ((run_stages 2 2 (stages 2) (startup (2 * 2) 2 2 sampleA4 sampleI4 sampleFresh sampleMem))
        (1 * 2 + 1)).calls = (List.range 2).map (fun k => 1 + 1 + k) ∧
      ((run_stages 2 2 (stages 2) (startup (2 * 2) 2 2 sampleA4 sampleI4 sampleFresh sampleMem))
          (1 * 2 + 1)).calls.map (fun s => contribution_index s 1 1)
        = (List.range 2).map (fun k : Nat => (k : Int)) ∧
      ((run_stages 2 2 (stages 2) (startup (2 * 2) 2 2 sampleA4 sampleI4 sampleFresh sampleMem))
        (1 * 2 + 1)).calls.Nodup ∧
      (∀ s ∈ ((run_stages 2 2 (stages 2)
          (startup (2 * 2) 2 2 sampleA4 sampleI4 sampleFresh sampleMem)) (1 * 2 + 1)).calls,
        s < stages 2)) :=
  ⟨by decide, by decide, by decide,
    dgemm_calls_once_per_k 2 2 (by decide) sampleA4 sampleI4 sampleFresh sampleMem 1 1
      (by decide) (by decide)⟩

/-- C10: `3p - 2` is the least number of stages with which every process of the
`p × p` grid performs all its `p` multiply-accumulates; with fewer stages the corner
process `(p-1, p-1)` performs fewer than `p`. -/
theorem stages_minimal {R : Type} [CommRing R] (p bs S : Nat) (hp : 1 ≤ p)
    (A B fresh : Buf R) (mem : World R) :
    stages p = 3 * p - 2 ∧
    ((∀ row col, row < p → col < p →
        ((run_stages p bs S (startup (p * bs) p bs A B fresh mem)) (row * p + col)).calls.length = p)
      ↔ stages p ≤ S) ∧
    (S < stages p →
        ((run_stages p bs S (startup (p * bs) p bs A B fresh mem))
          ((p - 1) * p + (p - 1))).calls.length < p) := by
  have hlen : ∀ row col, col < p →
      ((run_stages p bs S (startup (p * bs) p bs A B fresh mem)) (row * p + col)).calls.length
        = min S (row + col + p) - (row + col) := by
    intro row col hcol
    rw [calls_after p bs S row col hcol _ (startup_calls _ _ _ _ _ _ _ _)]
    simp
  refine ⟨rfl, ⟨?_, ?_⟩, ?_⟩
  · intro h
    have := h (p - 1) (p - 1) (by omega) (by omega)
    rw [hlen _ _ (by omega)] at this
    unfold stages; omega
  · intro h row col hrow hcol
    rw [hlen row col hcol]
    unfold stages at h; omega
  · intro h
    rw [hlen _ _ (by omega)]
    unfold stages at h; omega

/-- Instance of C10 at `p = 2` with 3 stages. -/
theorem stages_minimal_witness :
    1 ≤ 2 ∧
    (stages 2 = 3 * 2 - 2 ∧
    ((∀ row col, row < 2 → col < 2 →
        ((run_stages 2 2 3 (startup (2 * 2) 2 2 sampleA4 sampleI4 sampleFresh sampleMem))
          (row * 2 + col)).calls.length = 2)
      ↔ stages 2 ≤ 3) ∧
    (3 < stages 2 →
        ((run_stages 2 2 3 (startup (2 * 2) 2 2 sampleA4 sampleI4 sampleFresh sampleMem))
          ((2 - 1) * 2 + (2 - 1))).calls.length < 2)) :=
  ⟨by decide, stages_minimal 2 2 3 (by decide) sampleA4 sampleI4 sampleFresh sampleMem⟩

/-! ## Neighbours -/

/-- The receive a process posts for its west neighbour is matched by the send that
neighbour posts for its east neighbour. -/
theorem west_east (p rank w : Nat) (hp : 0 < p) (h : west p rank = some w) :
    east p w = some rank := by
  unfold west at h
  split_ifs at h with hc
  have hw : w = rank - 1 := by simpa using h.symm
  have hr : rank = (rank / p) * p + rank % p := (idx_decomp p rank).symm
  have hlt : rank % p - 1 < p := by have := Nat.mod_lt rank hp; omega
  have hm : (rank - 1) % p = rank % p - 1 := by
    have e : rank - 1 = (rank / p) * p + (rank % p - 1) := by omega
    rw [e]
    exact idx_mod p _ _ hlt
  subst hw
  unfold east
  rw [hm, if_pos (by have := Nat.mod_lt rank hp; omega)]
  congr 1
  omega

/-- The receive a process posts for its north neighbour is matched by the send that
neighbour posts for its south neighbour. -/
theorem north_south (p rank n : Nat) (hrank : rank < p * p) (h : north p rank = some n) :
    south p n = some rank := by
  unfold north at h
  split_ifs at h with hc
  have hn : n = rank - p := by simpa using h.symm
  have hp : 0 < p := by
    rcases Nat.eq_zero_or_pos p with h0 | h0
    · subst h0; simp at hrank
    · exact h0
  have hrow : rank / p < p := idx_div_lt p p rank hrank
  have hge : p ≤ rank := by
    have := idx_decomp p rank
    have h1 : 1 * p ≤ rank / p * p := Nat.mul_le_mul_right p hc
    omega
  have hd : (rank - p) / p = rank / p - 1 := by
    have e : rank - p = (rank / p - 1) * p + rank % p := by
      have := idx_decomp p rank
      have h1 : rank / p * p = (rank / p - 1) * p + p := by
        conv_lhs => rw [show rank / p = (rank / p - 1) + 1 by omega]
        exact Nat.succ_mul _ _
      omega
    rw [e]
    exact idx_div p _ _ (Nat.mod_lt rank hp)
  subst hn
  unfold south
  rw [hd, if_pos (by omega)]
  congr 1
  omega

/-! ## One stage of one process -/

theorem memcpy_apply {R : Type} (dst src : Buf R) (soff n y : Nat) (hy : y < n) :
    memcpy dst 0 src soff n y = src (soff + y) := by
  simp [memcpy, hy]

theorem replace_A_inject {R : Type} (p bs s rank : Nat) (g : World R) (hcol : rank % p = 0)
    (h1 : rank / p ≤ s) (h2 : s < rank / p + p) (y : Nat) (hy : y < bs * bs) :
    (stage_replace p bs s rank g).Ablk y = (g rank).A_rowbuf ((s - rank / p) * bs * bs + y) := by
  have hw : west p rank = none := by simp [west, hcol]
  have hidx : (0 : Int) ≤ (s : Int) - ((rank / p : Nat) : Int) ∧
      (s : Int) - ((rank / p : Nat) : Int) < (p : Int) := by omega
  have ht : ((s : Int) - ((rank / p : Nat) : Int)).toNat = s - rank / p := by omega
  simp only [stage_replace, hw, hcol, if_true, hidx, and_self, ht]
  simp [memcpy, hy]

theorem replace_A_shift {R : Type} (p bs s rank : Nat) (g : World R) (hcol : 0 < rank % p)
    (y : Nat) (hy : y < bs * bs) :
    (stage_replace p bs s rank g).Ablk y = (g (rank - 1)).Ablk y := by
  have hw : west p rank = some (rank - 1) := by simp [west, hcol]
  simp only [stage_replace, hw]
  simp [memcpy, hy]

theorem replace_B_inject {R : Type} (p bs s rank : Nat) (g : World R) (hrow : rank / p = 0)
    (h1 : rank % p ≤ s) (h2 : s < rank % p + p) (y : Nat) (hy : y < bs * bs) :
    (stage_replace p bs s rank g).Bblk y = (g rank).B_colbuf ((s - rank % p) * bs * bs + y) := by
  have hn : north p rank = none := by simp [north, hrow]
  have hidx : (0 : Int) ≤ (s : Int) - ((rank % p : Nat) : Int) ∧
      (s : Int) - ((rank % p : Nat) : Int) < (p : Int) := by omega
  have ht : ((s : Int) - ((rank % p : Nat) : Int)).toNat = s - rank % p := by omega
  simp only [stage_replace, hn, hrow, if_true, hidx, and_self, ht]
  simp [memcpy, hy]

theorem replace_B_shift {R : Type} (p bs s rank : Nat) (g : World R) (hrow : 0 < rank / p)
    (y : Nat) (hy : y < bs * bs) :
    (stage_replace p bs s rank g).Bblk y = (g (rank - p)).Bblk y := by
  have hn : north p rank = some (rank - p) := by simp [north, hrow]
  simp only [stage_replace, hn]
  simp [memcpy, hy]

theorem replace_frame {R : Type} (p bs s rank : Nat) (g : World R) :
    (stage_replace p bs s rank g).A_rowbuf = (g rank).A_rowbuf ∧
      (stage_replace p bs s rank g).B_colbuf = (g rank).B_colbuf ∧
      (stage_replace p bs s rank g).Cblk = (g rank).Cblk := ⟨rfl, rfl, rfl⟩

theorem compute_frame {R : Type} [CommRing R] (p bs s rank : Nat) (me : Proc R) :
    (stage_compute p bs s rank me).A_rowbuf = me.A_rowbuf ∧
      (stage_compute p bs s rank me).B_colbuf = me.B_colbuf ∧
      (stage_compute p bs s rank me).Ablk = me.Ablk ∧
      (stage_compute p bs s rank me).Bblk = me.Bblk := by
  unfold stage_compute
  obtain ⟨hA, hB, _⟩ := dgemm_tile_spec bs (Tile.mk me.Ablk me.Bblk me.Cblk)
  by_cases h : 0 ≤ contribution_index s (rank / p) (rank % p) ∧
      contribution_index s (rank / p) (rank % p) < (p : Int)
  · rw [if_pos h]
    exact ⟨rfl, rfl, hA, hB⟩
  · rw [if_neg h]
    exact ⟨rfl, rfl, rfl, rfl⟩

theorem compute_Cblk {R : Type} [CommRing R] (p bs s rank : Nat) (me : Proc R) (y : Nat)
    (hy : y < bs * bs) :
    (stage_compute p bs s rank me).Cblk y =
      if 0 ≤ contribution_index s (rank / p) (rank % p) ∧
          contribution_index s (rank / p) (rank % p) < (p : Int)
      then me.Cblk y + ∑ l ∈ Finset.range bs, me.Ablk ((y / bs) * bs + l) * me.Bblk (l * bs + y % bs)
      else me.Cblk y := by
  unfold stage_compute
  obtain ⟨_, _, hC⟩ := dgemm_tile_spec bs (Tile.mk me.Ablk me.Bblk me.Cblk)
  by_cases h : 0 ≤ contribution_index s (rank / p) (rank % p) ∧
      contribution_index s (rank / p) (rank % p) < (p : Int)
  · simp only [if_pos h]
    rw [hC y, if_pos hy]
  · simp only [if_neg h]

/-! ## The pipeline invariant -/

theorem startup_rowbuf {R : Type} [CommRing R] (p bs : Nat) (A B fresh : Buf R)
    (mem : World R) (row k y : Nat) (hk : k < p) (hy : y < bs * bs) :
    (startup (p * bs) p bs A B fresh mem (row * p + 0)).A_rowbuf (k * bs * bs + y)
      = sub_block A (p * bs) bs row k y := by
  have hp : 0 < p := by omega
  have hbs : 0 < bs := by
    rcases Nat.eq_zero_or_pos bs with h0 | h0
    · subst h0; simp at hy
    · exact h0
  have hi : y / bs < bs := idx_div_lt bs bs y hy
  have hj : y % bs < bs := Nat.mod_lt _ hbs
  have hx : k * bs * bs + y = k * bs * bs + (y / bs) * bs + y % bs := by
    have := idx_decomp bs y
    omega
  have hlt : k * bs * bs + y < p * bs * bs := by
    rw [hx]; exact band_index_lt p bs k _ _ hk hi hj
  obtain ⟨e1, e2, e3⟩ := band_index bs k (y / bs) (y % bs) hi hj
  simp only [startup, idx_mod p row 0 hp, idx_div p row 0 hp, if_true]
  rw [memcpy_apply _ _ _ _ _ hlt, Nat.zero_add, build_rowbuf_apply, if_pos hlt, hx, e1, e2, e3]
  rfl

theorem startup_colbuf {R : Type} [CommRing R] (p bs : Nat) (A B fresh : Buf R)
    (mem : World R) (col k y : Nat) (hcol : col < p) (hk : k < p) (hy : y < bs * bs) :
    (startup (p * bs) p bs A B fresh mem (0 * p + col)).B_colbuf (k * bs * bs + y)
      = sub_block B (p * bs) bs k col y := by
  have hbs : 0 < bs := by
    rcases Nat.eq_zero_or_pos bs with h0 | h0
    · subst h0; simp at hy
    · exact h0
  have hi : y / bs < bs := idx_div_lt bs bs y hy
  have hj : y % bs < bs := Nat.mod_lt _ hbs
  have hx : k * bs * bs + y = k * bs * bs + (y / bs) * bs + y % bs := by
    have := idx_decomp bs y
    omega
  have hlt : k * bs * bs + y < p * bs * bs := by
    rw [hx]; exact band_index_lt p bs k _ _ hk hi hj
  obtain ⟨e1, e2, e3⟩ := band_index bs k (y / bs) (y % bs) hi hj
  simp only [startup, idx_mod p 0 col hcol, idx_div p 0 col hcol, if_true]
  rw [memcpy_apply _ _ _ _ _ hlt, Nat.zero_add, build_colbuf_apply, if_pos hlt, hx, e1, e2, e3]
  rfl

theorem startup_Cblk {R : Type} [CommRing R] (N p bs : Nat) (A B fresh : Buf R)
    (mem : World R) (rank y : Nat) (hy : y < bs * bs) :
    (startup N p bs A B fresh mem rank).Cblk y = 0 := by
  simp [startup, memset_zero, hy]

theorem pipeline_inv_start {R : Type} [CommRing R] (p bs : Nat) (A B fresh : Buf R)
    (mem : World R) :
    PipelineInv p bs A B (startup (p * bs) p bs A B fresh mem) 0
      (startup (p * bs) p bs A B fresh mem) := by
  intro row col _ _
  refine ⟨rfl, rfl, ?_, ?_⟩
  · intro k _ h; omega
  · intro y hy
    rw [startup_Cblk _ _ _ _ _ _ _ _ _ hy]
    simp [product_upto]

/-- The timing alignment: if the invariant holds before stage `t`, then after the
replace step of stage `t` a process with contribution index `k < p` holds `A[row,k]`
and `B[k,col]`. -/
theorem replace_holds_blocks {R : Type} [CommRing R] (p bs t : Nat) (A B fresh : Buf R)
    (mem g : World R)
    (hinv : PipelineInv p bs A B (startup (p * bs) p bs A B fresh mem) t g)
    (row col k : Nat) (hrow : row < p) (hcol : col < p) (hk : k < p)
    (hkt : row + col + k = t) (y : Nat) (hy : y < bs * bs) :
    (stage_replace p bs t (row * p + col) g).Ablk y = sub_block A (p * bs) bs row k y ∧
      (stage_replace p bs t (row * p + col) g).Bblk y = sub_block B (p * bs) bs k col y := by
  have hd := idx_div p row col hcol
  have hm := idx_mod p row col hcol
  constructor
  · rcases Nat.eq_zero_or_pos col with h0 | h0
    · subst h0
      rw [replace_A_inject p bs t (row * p + 0) g hm (by omega) (by omega) y hy, hd,
        (hinv row 0 hrow hcol).1]
      have e : t - row = k := by omega
      rw [e]
      exact startup_rowbuf p bs A B fresh mem row k y hk hy
    · rw [replace_A_shift p bs t (row * p + col) g (by omega) y hy]
      have e : row * p + col - 1 = row * p + (col - 1) := by omega
      rw [e]
      exact ((hinv row (col - 1) hrow (by omega)).2.2.1 k hk (by omega) y hy).1
  · rcases Nat.eq_zero_or_pos row with h0 | h0
    · subst h0
      rw [replace_B_inject p bs t (0 * p + col) g hd (by omega) (by omega) y hy, hm,
        (hinv 0 col hrow hcol).2.1]
      have e : t - col = k := by omega
      rw [e]
      exact startup_colbuf p bs A B fresh mem col k y hcol hk hy
    · rw [replace_B_shift p bs t (row * p + col) g (by omega) y hy]
      have e : row * p + col - p = (row - 1) * p + col := by
        have : row * p = (row - 1) * p + p := by
          conv_lhs => rw [show row = (row - 1) + 1 by omega]
          exact Nat.succ_mul _ _
        omega
      rw [e]
      exact ((hinv (row - 1) col (by omega) hcol).2.2.1 k hk (by omega) y hy).2

theorem pipeline_inv_step {R : Type} [CommRing R] (p bs t : Nat) (A B fresh : Buf R)
    (mem g : World R)
    (hinv : PipelineInv p bs A B (startup (p * bs) p bs A B fresh mem) t g) :
    PipelineInv p bs A B (startup (p * bs) p bs A B fresh mem) (t + 1) (stage p bs t g) := by
  intro row col hrow hcol
  have hd := idx_div p row col hcol
  have hm := idx_mod p row col hcol
  obtain ⟨cf1, cf2, cf3, cf4⟩ :=
    compute_frame p bs t (row * p + col) (stage_replace p bs t (row * p + col) g)
  obtain ⟨rf1, rf2, rf3⟩ := replace_frame p bs t (row * p + col) g
  obtain ⟨i1, i2, _, i4⟩ := hinv row col hrow hcol
  refine ⟨?_, ?_, ?_, ?_⟩
  · show (stage_compute p bs t (row * p + col) (stage_replace p bs t (row * p + col) g)).A_rowbuf = _
    rw [cf1, rf1, i1]
  · show (stage_compute p bs t (row * p + col) (stage_replace p bs t (row * p + col) g)).B_colbuf = _
    rw [cf2, rf2, i2]
  · intro k hk hkt y hy
    show (stage_compute p bs t (row * p + col) (stage_replace p bs t (row * p + col) g)).Ablk y = _
      ∧ (stage_compute p bs t (row * p + col) (stage_replace p bs t (row * p + col) g)).Bblk y = _
    rw [cf3, cf4]
    exact replace_holds_blocks p bs t A B fresh mem g hinv row col k hrow hcol hk (by omega) y hy
  · intro y hy
    show (stage_compute p bs t (row * p + col) (stage_replace p bs t (row * p + col) g)).Cblk y = _
    rw [compute_Cblk p bs t (row * p + col) _ y hy, hd, hm, rf3, i4 y hy]
    have hbs : 0 < bs := by
      rcases Nat.eq_zero_or_pos bs with h0 | h0
      · subst h0; simp at hy
      · exact h0
    by_cases h : row + col ≤ t ∧ t < row + col + p
    · have hw : 0 ≤ contribution_index t row col ∧ contribution_index t row col < (p : Int) := by
        unfold contribution_index; omega
      have e1 : min t (row + col + p) - (row + col) = t - (row + col) := by omega
      have e2 : min (t + 1) (row + col + p) - (row + col) = (t - (row + col)) + 1 := by omega
      rw [if_pos hw, e1, e2]
      unfold product_upto
      rw [Finset.sum_range_succ]
      congr 1
      apply Finset.sum_congr rfl
      intro l hl
      rw [Finset.mem_range] at hl
      have hA := (replace_holds_blocks p bs t A B fresh mem g hinv row col (t - (row + col))
        hrow hcol (by omega) (by omega) (y / bs * bs + l)
        (idx_lt bs bs _ _ (idx_div_lt bs bs y hy) hl)).1
      have hB := (replace_holds_blocks p bs t A B fresh mem g hinv row col (t - (row + col))
        hrow hcol (by omega) (by omega) (l * bs + y % bs)
        (idx_lt bs bs _ _ hl (Nat.mod_lt _ hbs))).2
      rw [hA, hB]
    · have hw : ¬ (0 ≤ contribution_index t row col ∧ contribution_index t row col < (p : Int)) := by
        unfold contribution_index; omega
      have e1 : min (t + 1) (row + col + p) - (row + col) = min t (row + col + p) - (row + col) := by
        omega
      rw [if_neg hw, e1]

theorem pipeline_inv_run {R : Type} [CommRing R] (p bs n : Nat) (A B fresh : Buf R)
    (mem : World R) :
    PipelineInv p bs A B (startup (p * bs) p bs A B fresh mem) n
      (run_stages p bs n (startup (p * bs) p bs A B fresh mem)) := by
  unfold run_stages
  exact foldl_range_inv (fun g s => stage p bs s g)
    (fun m g => PipelineInv p bs A B (startup (p * bs) p bs A B fresh mem) m g) _ n
    (pipeline_inv_start p bs A B fresh mem)
    (fun m g _ hg => pipeline_inv_step p bs m A B fresh mem g hg)

/-- C2: in a run on a `p × p` grid with `N = p * bs`, at every stage `s < 3p - 2` and
for every process `(row, col)` whose contribution index `k = s - row - col` satisfies
`0 ≤ k < p`, the block `Ablk` after the replace step of stage `s` is the block
`A[row,k]` of the input and `Bblk` is the block `B[k,col]`. -/
theorem timing_alignment {R : Type} [CommRing R] (p bs : Nat) (_hp : 1 ≤ p)
    (A B fresh : Buf R) (mem : World R) (row col s k i j : Nat)
    (hrow : row < p) (hcol : col < p) (_hs : s < stages p)
    (hk : contribution_index s row col = (k : Int)) (hkp : k < p)
    (hi : i < bs) (hj : j < bs) :
    (stage_replace p bs s (row * p + col)
        (run_stages p bs s (startup (p * bs) p bs A B fresh mem))).Ablk (i * bs + j)
      = A ((row * bs + i) * (p * bs) + k * bs + j) ∧
    (stage_replace p bs s (row * p + col)
        (run_stages p bs s (startup (p * bs) p bs A B fresh mem))).Bblk (i * bs + j)
      = B ((k * bs + i) * (p * bs) + col * bs + j) := by
  have hkt : row + col + k = s := by unfold contribution_index at hk; omega
  have h := replace_holds_blocks p bs s A B fresh mem _
    (pipeline_inv_run p bs s A B fresh mem) row col k hrow hcol hkp hkt (i * bs + j)
    (idx_lt bs bs i j hi hj)
  simp only [sub_block, idx_div bs i j hj, idx_mod bs i j hj] at h
  exact h

/-- Instance of C2 at `p = 2`, process `(1, 0)`, stage 2, `k = 1`. -/
theorem timing_alignment_witness :
    1 ≤ 2 ∧ 1 < 2 ∧ 0 < 2 ∧ 2 < stages 2 ∧ contribution_index 2 1 0 = ((1 : Nat) : Int) ∧
    1 < 2 ∧ 0 < 2 ∧ 1 < 2 ∧
    ((stage_replace 2 2 2 (1 * 2 + 0)
        (run_stages 2 2 2 (startup (2 * 2) 2 2 sampleA4 sampleI4 sampleFresh sampleMem))).Ablk
        (0 * 2 + 1)
      = sampleA4 ((1 * 2 + 0) * (2 * 2) + 1 * 2 + 1) ∧
    (stage_replace 2 2 2 (1 * 2 + 0)
        (run_stages 2 2 2 (startup (2 * 2) 2 2 sampleA4 sampleI4 sampleFresh sampleMem))).Bblk
        (0 * 2 + 1)
      = sampleI4 ((1 * 2 + 0) * (2 * 2) + 0 * 2 + 1)) :=
  ⟨by decide, by decide, by decide, by decide, by decide, by decide, by decide, by decide,
    timing_alignment 2 2 (by decide) sampleA4 sampleI4 sampleFresh sampleMem 1 0 2 1 0 1
      (by decide) (by decide) (by decide) (by decide) (by decide) (by decide) (by decide)⟩

/-! ## The whole run -/

theorem sum_range_blocks {R : Type} [CommRing R] (f : Nat → R) (p bs : Nat) :
    ∑ t ∈ Finset.range (p * bs), f t
      = ∑ k ∈ Finset.range p, ∑ l ∈ Finset.range bs, f (k * bs + l) := by
  induction p with
  | zero => simp
  | succ p ih =>
    rw [Nat.succ_mul, Finset.sum_range_add, ih, Finset.sum_range_succ]

theorem main_proceeds {R : Type} [CommRing R] (p bs : Nat) (hp : 1 ≤ p) (A B : Buf R)
    (mem : World R) (fresh C : Buf R) :
    Systolic.main (p * p) (p * bs) A B mem fresh C =
      Outcome.mk ([Event.distribute] ++ (List.range (stages p)).map Event.stage
        ++ [Event.write_full_matrix])
        (Except.ok (collect (p * p) (p * bs) p bs
          (fun r => (run_stages p bs (stages p) (startup (p * bs) p bs A B fresh mem) r).Cblk)
          fresh C)) := by
  have hf : topology_fails (p * p) (p * bs) = false := by
    rw [topology_fails_eq_false_iff, round_sqrt_sq]
    exact ⟨rfl, Nat.mul_mod_right p bs⟩
  have hdiv : p * bs / p = bs := Nat.mul_div_cancel_left bs hp
  simp only [Systolic.main, hf, round_sqrt_sq, hdiv]
  rfl

/-- The accumulator of the process `(row, col)` after the whole stage loop. -/
theorem final_Cblk {R : Type} [CommRing R] (p bs : Nat) (A B fresh : Buf R) (mem : World R)
    (row col ii jj : Nat) (hrow : row < p) (hcol : col < p) (hii : ii < bs) (hjj : jj < bs) :
    (run_stages p bs (stages p) (startup (p * bs) p bs A B fresh mem) (row * p + col)).Cblk
        (ii * bs + jj)
      = ∑ t ∈ Finset.range (p * bs),
          A ((row * bs + ii) * (p * bs) + t) * B (t * (p * bs) + (col * bs + jj)) := by
  obtain ⟨_, _, _, h⟩ := pipeline_inv_run p bs (stages p) A B fresh mem row col hrow hcol
  have hK : min (stages p) (row + col + p) - (row + col) = p := by unfold stages; omega
  rw [h (ii * bs + jj) (idx_lt bs bs ii jj hii hjj), hK, sum_range_blocks]
  unfold product_upto
  apply Finset.sum_congr rfl
  intro k _
  apply Finset.sum_congr rfl
  intro l hl
  rw [Finset.mem_range] at hl
  simp only [sub_block, idx_div bs ii jj hjj, idx_mod bs ii jj hjj, idx_div bs ii l hl,
    idx_mod bs ii l hl, idx_div bs l jj hjj, idx_mod bs l jj hjj]
  congr 2 <;> ring

/-- The cell `(i, j)` of the array assembled from the accumulators left by the stage
loop. -/
theorem main_result_cell {R : Type} [CommRing R] (p bs : Nat) (hp : 1 ≤ p) (hbs : 1 ≤ bs)
    (A B : Buf R) (mem : World R) (fresh C : Buf R) (i j : Nat)
    (hi : i < p * bs) (hj : j < p * bs) :
    collect (p * p) (p * bs) p bs
        (fun r => (run_stages p bs (stages p) (startup (p * bs) p bs A B fresh mem) r).Cblk)
        fresh C (i * (p * bs) + j)
      = ∑ t ∈ Finset.range (p * bs), A (i * (p * bs) + t) * B (t * (p * bs) + j) := by
  obtain ⟨n, hn⟩ : ∃ n, p * p = n + 1 := ⟨p * p - 1, by have := Nat.mul_pos hp hp; omega⟩
  have hrow : i / bs < p := idx_div_lt p bs i hi
  have hcol : j / bs < p := idx_div_lt p bs j hj
  have hii : i % bs < bs := Nat.mod_lt _ hbs
  have hjj : j % bs < bs := Nat.mod_lt _ hbs
  obtain ⟨d1, d2, d3, d4⟩ := cell_decode p bs (i / bs) (j / bs) (i % bs) (j % bs) hcol hii hjj
  have hcell : i * (p * bs) + j
      = (i / bs * bs + i % bs) * (p * bs) + j / bs * bs + j % bs := by
    rw [idx_decomp bs i, Nat.add_assoc, idx_decomp bs j]
  rw [hcell, hn, collect_loop p bs n hp hbs, d1, d2, d3, d4, ← hn,
    if_pos (idx_lt p p _ _ hrow hcol),
    final_Cblk p bs A B fresh mem _ _ _ _ hrow hcol hii hjj, idx_decomp bs i, idx_decomp bs j]

/-- C1: for `p ≥ 1`, `bs ≥ 1` and `N = p * bs`, a run of `main` on `p * p` processes
with the `N × N` matrices `A` and `B` goes through the distribution, all `3p - 2`
stages and the collection, and the matrix it writes has at `(i, j)` the sum over
`t < N` of `A[i][t] * B[t][j]`, whatever the previous contents of the buffers. -/
theorem systolic_product {R : Type} [CommRing R] (p bs : Nat) (hp : 1 ≤ p) (hbs : 1 ≤ bs)
    (A B : Buf R) (mem : World R) (fresh C : Buf R) (i j : Nat)
    (hi : i < p * bs) (hj : j < p * bs) :
    ∃ Cfull : Buf R,
      Systolic.main (p * p) (p * bs) A B mem fresh C =
        Outcome.mk ([Event.distribute] ++ (List.range (3 * p - 2)).map Event.stage
          ++ [Event.write_full_matrix]) (Except.ok Cfull) ∧
      Cfull (i * (p * bs) + j)
        = ∑ t ∈ Finset.range (p * bs), A (i * (p * bs) + t) * B (t * (p * bs) + j) :=
  ⟨_, main_proceeds p bs hp A B mem fresh C,
    main_result_cell p bs hp hbs A B mem fresh C i j hi hj⟩

/-- Instance of C1 at `p = 2`, `bs = 2`, cell `(1, 2)`. -/
theorem systolic_product_witness :
    1 ≤ 2 ∧ 1 ≤ 2 ∧ 1 < 2 * 2 ∧ 2 < 2 * 2 ∧
    ∃ Cfull : Buf Int,
      Systolic.main (2 * 2) (2 * 2) sampleA4 sampleI4 sampleMem sampleFresh sampleFresh =
        Outcome.mk ([Event.distribute] ++ (List.range (3 * 2 - 2)).map Event.stage
          ++ [Event.write_full_matrix]) (Except.ok Cfull) ∧
      Cfull (1 * (2 * 2) + 2)
        = ∑ t ∈ Finset.range (2 * 2), sampleA4 (1 * (2 * 2) + t) * sampleI4 (t * (2 * 2) + 2) :=
  ⟨by decide, by decide, by decide, by decide,
    systolic_product 2 2 (by decide) (by decide) sampleA4 sampleI4 sampleMem sampleFresh
      sampleFresh 1 2 (by decide) (by decide)⟩

/-- The scenario `N = 4`, `P = 4`: with `A = [[1,2,3,4],[5,6,7,8],[9,10,11,12],[13,14,15,16]]`
and `B` the identity, the matrix written is `A`. -/
theorem systolic_scenario_identity (mem : World Int) (fresh C : Buf Int) (i j : Nat)
    (hi : i < 4) (hj : j < 4) :
    ∃ Cfull : Buf Int,
      Systolic.main 4 4 sampleA4 sampleI4 mem fresh C =
        Outcome.mk [Event.distribute, Event.stage 0, Event.stage 1, Event.stage 2,
          Event.stage 3, Event.write_full_matrix] (Except.ok Cfull) ∧
      Cfull (i * 4 + j) = sampleA4 (i * 4 + j) := by
  refine ⟨_, main_proceeds 2 2 (by decide) sampleA4 sampleI4 mem fresh C, ?_⟩
  have h := main_result_cell 2 2 (by decide) (by decide) sampleA4 sampleI4 mem fresh C i j hi hj
  rw [show (2 * 2 : Nat) = 4 from rfl] at h
  rw [h]
  interval_cases i <;> interval_cases j <;> decide

/-! ## Grid coordinates -/

/-- C11: for `p ≥ 1` every rank below `p * p` has coordinates `row = rank / p` and
`col = rank % p` below `p` with `rank = row * p + col`, and every pair `(row, col)`
below `p` is the pair of coordinates of exactly one rank below `p * p`. -/
theorem grid_coordinates (p : Nat) (hp : 1 ≤ p) (rank row col : Nat) (hrank : rank < p * p)
    (hrow : row < p) (hcol : col < p) :
    (my_row p rank < p ∧ my_col p rank < p ∧ rank = my_row p rank * p + my_col p rank) ∧
      (∃! r, r < p * p ∧ my_row p r = row ∧ my_col p r = col) := by
  unfold my_row my_col
  refine ⟨⟨idx_div_lt p p rank hrank, Nat.mod_lt _ hp, (idx_decomp p rank).symm⟩, ?_⟩
  refine ⟨row * p + col, ⟨idx_lt p p row col hrow hcol, idx_div p row col hcol,
    idx_mod p row col hcol⟩, ?_⟩
  rintro r ⟨_, h1, h2⟩
  rw [← idx_decomp p r, h1, h2]

/-- Instance of C11 at `p = 3`, rank 7 and the pair `(2, 1)`. -/
theorem grid_coordinates_witness :
    1 ≤ 3 ∧ 7 < 3 * 3 ∧ 2 < 3 ∧ 1 < 3 ∧
    (my_row 3 7 < 3 ∧ my_col 3 7 < 3 ∧ 7 = my_row 3 7 * 3 + my_col 3 7) ∧
      (∃! r, r < 3 * 3 ∧ my_row 3 r = 2 ∧ my_col 3 r = 1) :=
  ⟨by decide, by decide, by decide, by decide,
    grid_coordinates 3 (by decide) 7 2 1 (by decide) (by decide) (by decide)⟩

/-! ## Matching of the neighbours -/

theorem succ_coords (p r : Nat) (h : r % p < p - 1) :
    (r + 1) / p = r / p ∧ (r + 1) % p = r % p + 1 := by
  have e : r + 1 = (r / p) * p + (r % p + 1) := by
    have := idx_decomp p r
    omega
  have hlt : r % p + 1 < p := by omega
  constructor
  · conv_lhs => rw [e]
    exact idx_div p _ _ hlt
  · conv_lhs => rw [e]
    exact idx_mod p _ _ hlt

theorem add_p_coords (p r : Nat) (hp : 0 < p) :
    (r + p) / p = r / p + 1 ∧ (r + p) % p = r % p :=
  ⟨Nat.add_div_right r hp, Nat.add_mod_right r p⟩

/-- The send a process posts for its east neighbour is matched by the receive that
neighbour posts for its west neighbour. -/
theorem east_west (p r q : Nat) (h : east p r = some q) : west p q = some r := by
  unfold east at h
  split_ifs at h with hc
  have hq : q = r + 1 := by simpa using h.symm
  subst hq
  obtain ⟨_, hm⟩ := succ_coords p r hc
  unfold west
  rw [hm, if_pos (by omega)]
  rfl

/-- The send a process posts for its south neighbour is matched by the receive that
neighbour posts for its north neighbour. -/
theorem south_north (p r q : Nat) (hp : 0 < p) (h : south p r = some q) :
    north p q = some r := by
  unfold south at h
  split_ifs at h with hc
  have hq : q = r + p := by simpa using h.symm
  subst hq
  obtain ⟨hd, _⟩ := add_p_coords p r hp
  have hpos : (r + p) / p > 0 := by rw [hd]; exact Nat.succ_pos _
  unfold north
  rw [if_pos hpos]
  congr 1
  omega

theorem nreq_le (p r : Nat) : nreq p r ≤ 4 := by
  unfold nreq
  simp only
  split_ifs <;> omega

/-- C16: on a `p × p` grid, for ranks `q, r` below `p * p`, `q` is the east neighbour
of `r` exactly when `r` is the west neighbour of `q`, and `q` is the south neighbour
of `r` exactly when `r` is the north neighbour of `q`; an east neighbour lies in the
grid at `(row, col + 1)`, a south neighbour at `(row + 1, col)`; a process on the
last column has no east neighbour, on the last row no south neighbour, on the first
column no west neighbour, on the first row no north neighbour; and a process issues
at most 4 requests in a stage. -/
theorem neighbours_match (p : Nat) (hp : 1 ≤ p) (q r : Nat) (hq : q < p * p)
    (hr : r < p * p) :
    (east p r = some q ↔ west p q = some r) ∧
    (south p r = some q ↔ north p q = some r) ∧
    (∀ e, east p r = some e →
      e < p * p ∧ my_row p e = my_row p r ∧ my_col p e = my_col p r + 1) ∧
    (∀ s, south p r = some s →
      s < p * p ∧ my_row p s = my_row p r + 1 ∧ my_col p s = my_col p r) ∧
    (my_col p r = p - 1 → east p r = none) ∧
    (my_row p r = p - 1 → south p r = none) ∧
    (my_col p r = 0 → west p r = none) ∧
    (my_row p r = 0 → north p r = none) ∧
    nreq p r ≤ 4 := by
  have hrow : r / p < p := idx_div_lt p p r hr
  have hcol : r % p < p := Nat.mod_lt _ hp
  refine ⟨⟨east_west p r q, west_east p q r hp⟩,
    ⟨south_north p r q hp, north_south p q r hq⟩, ?_, ?_, ?_, ?_, ?_, ?_, nreq_le p r⟩
  · intro e he
    unfold east at he
    split_ifs at he with hc
    have hq : e = r + 1 := by simpa using he.symm
    subst hq
    obtain ⟨hd, hm⟩ := succ_coords p r hc
    refine ⟨?_, hd, hm⟩
    have h1 := idx_lt p p (r / p) (r % p + 1) hrow (by omega)
    have h2 := idx_decomp p r
    omega
  · intro s hs
    unfold south at hs
    split_ifs at hs with hc
    have hq : s = r + p := by simpa using hs.symm
    subst hq
    obtain ⟨hd, hm⟩ := add_p_coords p r hp
    refine ⟨?_, hd, hm⟩
    have h1 := idx_lt p p (r / p + 1) (r % p) (by omega) hcol
    have h2 := idx_decomp p r
    have h3 : (r / p + 1) * p = r / p * p + p := Nat.succ_mul _ _
    omega
  · intro h
    unfold my_col at h
    unfold east
    rw [if_neg (by omega)]
  · intro h
    unfold my_row at h
    unfold south
    rw [if_neg (by omega)]
  · intro h
    unfold my_col at h
    unfold west
    rw [if_neg (by omega)]
  · intro h
    unfold my_row at h
    unfold north
    rw [if_neg (by omega)]

/-- Instance of C16 at `p = 3` with `r = 4` and `q = 5`. -/
theorem neighbours_match_witness :
    1 ≤ 3 ∧ 5 < 3 * 3 ∧ 4 < 3 * 3 ∧
    ((east 3 4 = some 5 ↔ west 3 5 = some 4) ∧
    (south 3 4 = some 5 ↔ north 3 5 = some 4) ∧
    (∀ e, east 3 4 = some e →
      e < 3 * 3 ∧ my_row 3 e = my_row 3 4 ∧ my_col 3 e = my_col 3 4 + 1) ∧
    (∀ s, south 3 4 = some s →
      s < 3 * 3 ∧ my_row 3 s = my_row 3 4 + 1 ∧ my_col 3 s = my_col 3 4) ∧
    (my_col 3 4 = 3 - 1 → east 3 4 = none) ∧
    (my_row 3 4 = 3 - 1 → south 3 4 = none) ∧
    (my_col 3 4 = 0 → west 3 4 = none) ∧
    (my_row 3 4 = 0 → north 3 4 = none) ∧
    nreq 3 4 ≤ 4) :=
  ⟨by decide, by decide, by decide,
    neighbours_match 3 (by decide) 5 4 (by decide) (by decide)⟩

/-! ## Tags of the distribution messages -/

theorem root_sends_succ (n : Nat) :
    root_sends (n + 1) =
      (List.range n).map (fun r => ((r + 1) * (n + 1), 10 + (r + 1))) ++
      (List.range n).map (fun c => (c + 1, 20 + (c + 1))) := by
  unfold root_sends
  rw [List.range_succ_eq_map]
  simp only [List.filterMap_cons, Nat.zero_mul, if_true, List.filterMap_map]
  congr 1
  · rw [← List.filterMap_eq_map]
    apply List.filterMap_congr
    intro r _
    simp [Function.comp]
  · rw [← List.filterMap_eq_map]
    apply List.filterMap_congr
    intro r _
    simp [Function.comp]

theorem mem_root_sends (n : Nat) (m : Nat × Nat) :
    m ∈ root_sends (n + 1) ↔
      (∃ r, r < n ∧ m = ((r + 1) * (n + 1), 10 + (r + 1))) ∨
      (∃ c, c < n ∧ m = (c + 1, 20 + (c + 1))) := by
  rw [root_sends_succ]
  simp only [List.mem_append, List.mem_map, List.mem_range]
  constructor
  · rintro (⟨r, hr, rfl⟩ | ⟨c, hc, rfl⟩)
    · exact Or.inl ⟨r, hr, rfl⟩
    · exact Or.inr ⟨c, hc, rfl⟩
  · rintro (⟨r, hr, rfl⟩ | ⟨c, hc, rfl⟩)
    · exact Or.inl ⟨r, hr, rfl⟩
    · exact Or.inr ⟨c, hc, rfl⟩

theorem row_dest_ge (n r : Nat) : n + 1 ≤ (r + 1) * (n + 1) := by
  have h : 1 * (n + 1) ≤ (r + 1) * (n + 1) := Nat.mul_le_mul_right (n + 1) (by omega)
  omega

theorem root_dests_nodup (n : Nat) : ((root_sends (n + 1)).map Prod.fst).Nodup := by
  rw [root_sends_succ, List.map_append, List.map_map, List.map_map, List.nodup_append]
  refine ⟨?_, ?_, ?_⟩
  · refine List.Nodup.map ?_ (List.nodup_range n)
    intro a b h
    simp only [Function.comp] at h
    have := Nat.eq_of_mul_eq_mul_right (Nat.succ_pos n) h
    omega
  · refine List.Nodup.map ?_ (List.nodup_range n)
    intro a b h
    simp only [Function.comp] at h
    omega
  · rw [List.disjoint_left]
    intro d h1 h2
    simp only [List.mem_map, List.mem_range, Function.comp] at h1 h2
    obtain ⟨r, _, rfl⟩ := h1
    obtain ⟨c, hc, h⟩ := h2
    have := row_dest_ge n r
    omega

/-- C17: for `p ≥ 1` the root sends `2p - 2` messages whose (destination, tag) pairs
are pairwise distinct and whose destinations are pairwise distinct non-root ranks of
the grid; the process a message is addressed to posts exactly one receive, with the
tag of that message; and every receive a non-root process posts has the tag of a
message addressed to that process. -/
theorem distribution_tags (p : Nat) (hp : 1 ≤ p) (rank : Nat) (hr0 : 0 < rank)
    (hr : rank < p * p) :
    (root_sends p).length = 2 * p - 2 ∧
    (root_sends p).Nodup ∧
    ((root_sends p).map Prod.fst).Nodup ∧
    (∀ m ∈ root_sends p, 0 < m.1 ∧ m.1 < p * p ∧ posted_recvs p m.1 = [m.2]) ∧
    (∀ t ∈ posted_recvs p rank, (rank, t) ∈ root_sends p) := by
  obtain ⟨n, rfl⟩ : ∃ n, p = n + 1 := ⟨p - 1, by omega⟩
  have hdn := root_dests_nodup n
  refine ⟨?_, List.Nodup.of_map _ hdn, hdn, ?_, ?_⟩
  · rw [root_sends_succ]
    simp only [List.length_append, List.length_map, List.length_range]
    omega
  · intro m hm
    rw [mem_root_sends] at hm
    rcases hm with ⟨r, hrn, rfl⟩ | ⟨c, hcn, rfl⟩
    · have hge := row_dest_ge n r
      have hlt : (r + 1) * (n + 1) + 0 < (n + 1) * (n + 1) :=
        idx_lt (n + 1) (n + 1) (r + 1) 0 (by omega) (by omega)
      have hd : (r + 1) * (n + 1) / (n + 1) = r + 1 := Nat.mul_div_cancel _ (Nat.succ_pos n)
      have hm : (r + 1) * (n + 1) % (n + 1) = 0 := Nat.mul_mod_left _ _
      refine ⟨by omega, by omega, ?_⟩
      simp only [posted_recvs, my_row, my_col, hd, hm]
      rw [if_neg (by omega)]
      simp
    · have hd : (c + 1) / (n + 1) = 0 := Nat.div_eq_of_lt (by omega)
      have hm : (c + 1) % (n + 1) = c + 1 := Nat.mod_eq_of_lt (by omega)
      have hlt : 0 * (n + 1) + (c + 1) < (n + 1) * (n + 1) :=
        idx_lt (n + 1) (n + 1) 0 (c + 1) (by omega) (by omega)
      refine ⟨by omega, by omega, ?_⟩
      simp only [posted_recvs, my_row, my_col, hd, hm]
      rw [if_neg (by omega)]
      simp
  · intro t ht
    rw [mem_root_sends]
    have hrow : rank / (n + 1) < n + 1 := idx_div_lt _ _ rank hr
    have hcol : rank % (n + 1) < n + 1 := Nat.mod_lt _ (Nat.succ_pos n)
    have hdec := idx_decomp (n + 1) rank
    simp only [posted_recvs, my_row, my_col] at ht
    rw [if_neg (by omega)] at ht
    rcases List.mem_append.1 ht with h | h
    · by_cases hc : rank % (n + 1) = 0
      · rw [if_pos hc] at h
        have ht' : t = 10 + rank / (n + 1) := by simpa using h
        have hpos : 0 < rank / (n + 1) := by
          rcases Nat.eq_zero_or_pos (rank / (n + 1)) with h0 | h0
          · rw [h0, hc] at hdec; omega
          · exact h0
        refine Or.inl ⟨rank / (n + 1) - 1, by omega, ?_⟩
        have e : rank / (n + 1) - 1 + 1 = rank / (n + 1) := by omega
        rw [e, ht']
        rw [hc] at hdec
        exact Prod.ext (by simpa using hdec.symm) rfl
      · rw [if_neg hc] at h
        simp at h
    · by_cases hc : rank / (n + 1) = 0
      · rw [if_pos hc] at h
        have ht' : t = 20 + rank % (n + 1) := by simpa using h
        rw [hc] at hdec
        refine Or.inr ⟨rank % (n + 1) - 1, by omega, ?_⟩
        have e : rank % (n + 1) - 1 + 1 = rank % (n + 1) := by omega
        rw [e, ht']
        exact Prod.ext (by simp only; omega) rfl
      · rw [if_neg hc] at h
        simp at h

/-- Instance of C17 at `p = 12` (where `10 + r = 20 + c` has solutions) and rank 24. -/
theorem distribution_tags_witness :
    1 ≤ 12 ∧ 0 < 24 ∧ 24 < 12 * 12 ∧
    ((root_sends 12).length = 2 * 12 - 2 ∧
    (root_sends 12).Nodup ∧
    ((root_sends 12).map Prod.fst).Nodup ∧
    (∀ m ∈ root_sends 12, 0 < m.1 ∧ m.1 < 12 * 12 ∧ posted_recvs 12 m.1 = [m.2]) ∧
    (∀ t ∈ posted_recvs 12 24, (24, t) ∈ root_sends 12)) :=
  ⟨by decide, by decide, by decide, distribution_tags 12 (by decide) 24 (by decide) (by decide)⟩

/-! ## The generator rounds to the nearest positive multiple -/

theorem adjust_size_pos_dvd (base threads : Int) (hb : 0 < base) (ht : 0 < threads) :
    0 < adjust_size base threads ∧ threads ∣ adjust_size base threads := by
  obtain ⟨q, r, hbase, hq, hr0, hrt, hres⟩ := adjust_size_cases base threads hb ht
  rw [hres]
  have hq1 : 0 < threads * (q + 1) := mul_pos ht (by omega)
  by_cases h0 : r = 0
  · subst h0
    simp only [if_true]
    exact ⟨hb, ⟨q, by omega⟩⟩
  · simp only [h0, if_false]
    split_ifs with h1 h2
    · exact ⟨h2, dvd_mul_right _ _⟩
    · exact ⟨hq1, dvd_mul_right _ _⟩
    · exact ⟨hq1, dvd_mul_right _ _⟩

/-- C15: for `base > 0` and `threads > 0` the result `r` of `adjust_size` is a positive
multiple of `threads` with `|r - base| ≤ |m - base|` for every positive multiple `m`
of `threads`; `r = base` when `base` is a multiple of `threads`, and `r = threads`
when `base < threads`. -/
theorem adjust_size_nearest (base threads m : Int) (hb : 0 < base) (ht : 0 < threads)
    (hm : 0 < m) (hdvd : threads ∣ m) :
    (0 < adjust_size base threads ∧ threads ∣ adjust_size base threads) ∧
    |adjust_size base threads - base| ≤ |m - base| ∧
    (threads ∣ base → adjust_size base threads = base) ∧
    (base < threads → adjust_size base threads = threads) := by
  refine ⟨adjust_size_pos_dvd base threads hb ht, ?_, ?_, ?_⟩
  · obtain ⟨q, r, hbase, hq, hr0, hrt, hres⟩ := adjust_size_cases base threads hb ht
    obtain ⟨j, rfl⟩ := hdvd
    have hj : 1 ≤ j := by
      by_contra hc
      have : j ≤ 0 := by omega
      have := mul_nonpos_of_nonneg_of_nonpos ht.le this
      omega
    have hup : threads * (q + 1) = threads * q + threads := by ring
    have hlow : j ≤ q → threads * j ≤ threads * q := fun h =>
      mul_le_mul_of_nonneg_left h ht.le
    have hhigh : q + 1 ≤ j → threads * q + threads ≤ threads * j := fun h => by
      have := mul_le_mul_of_nonneg_left h ht.le
      rw [hup] at this
      exact this
    have h1 : threads * j - base ≤ |threads * j - base| := le_abs_self _
    have h2 : -(threads * j - base) ≤ |threads * j - base| := neg_le_abs _
    have hq0 : ¬ (threads * q > 0) → q = 0 := by
      intro h
      by_contra hc
      exact h (mul_pos ht (by omega))
    rw [hres, abs_le]
    by_cases hjq : j ≤ q
    · have hl := hlow hjq
      split_ifs with c1 c2 c3
      · constructor <;> omega
      · constructor <;> omega
      · have := hq0 c3; omega
      · constructor <;> omega
    · have hh := hhigh (by omega)
      split_ifs with c1 c2 c3
      · constructor <;> omega
      · constructor <;> omega
      · have := hq0 c3
        subst this
        constructor <;> omega
      · constructor <;> omega
  · intro h
    have hz : base.tmod threads = 0 := by
      rw [Int.tmod_eq_emod hb.le ht.le]
      exact Int.emod_eq_zero_of_dvd h
    simp [adjust_size, hz]
  · intro h
    have hz : base.tmod threads = base := by
      rw [Int.tmod_eq_emod hb.le ht.le]
      exact Int.emod_eq_of_lt hb.le h
    have hne : base ≠ 0 := hb.ne'
    simp only [adjust_size, hz, hne, if_false, sub_self]
    split_ifs with c1 c2
    · omega
    · omega
    · omega

/-- Instance of C15 at `base = 10`, `threads = 4` and the multiple `m = 12`. -/
theorem adjust_size_nearest_witness :
    (0 : Int) < 10 ∧ (0 : Int) < 4 ∧ (0 : Int) < 12 ∧ (4 : Int) ∣ 12 ∧
    ((0 < adjust_size 10 4 ∧ (4 : Int) ∣ adjust_size 10 4) ∧
    |adjust_size 10 4 - 10| ≤ |(12 : Int) - 10| ∧
    ((4 : Int) ∣ 10 → adjust_size 10 4 = 10) ∧
    ((10 : Int) < 4 → adjust_size 10 4 = 4)) :=
  ⟨by decide, by decide, by decide, by decide,
    adjust_size_nearest 10 4 12 (by decide) (by decide) (by decide) (by decide)⟩

/-! ## The stencil of the heat solver -/

theorem cell_lt (N i j : Int) (hi0 : 0 ≤ i) (hi : i < N) (hj : j < N) :
    i * N + j < N * N := by
  nlinarith

theorem stencil_bounds (N i j : Int) (hi0 : 0 ≤ i) (hi : i < N) (hj0 : 0 ≤ j)
    (hj : j < N) :
    (0 ≤ (HeatSolver.stencil i j N).center ∧ (HeatSolver.stencil i j N).center < N * N) ∧
    (0 ≤ (HeatSolver.stencil i j N).top ∧ (HeatSolver.stencil i j N).top < N * N) ∧
    (0 ≤ (HeatSolver.stencil i j N).bottom ∧ (HeatSolver.stencil i j N).bottom < N * N) ∧
    (0 ≤ (HeatSolver.stencil i j N).left ∧ (HeatSolver.stencil i j N).left < N * N) ∧
    (0 ≤ (HeatSolver.stencil i j N).right ∧ (HeatSolver.stencil i j N).right < N * N) := by
  have hN : 0 < N := by omega
  have h0 : 0 ≤ i * N := mul_nonneg hi0 hN.le
  have hc := cell_lt N i j hi0 hi hj
  simp only [HeatSolver.stencil]
  refine ⟨⟨by omega, hc⟩, ⟨?_, ?_⟩, ⟨?_, ?_⟩, ⟨?_, ?_⟩, ⟨?_, ?_⟩⟩
  · split_ifs with h
    · omega
    · have : 0 ≤ (i - 1) * N := mul_nonneg (by omega) hN.le
      omega
  · split_ifs with h
    · exact hc
    · have := cell_lt N (i - 1) j (by omega) (by omega) hj
      exact this
  · split_ifs with h
    · omega
    · have : 0 ≤ (i + 1) * N := mul_nonneg (by omega) hN.le
      omega
  · split_ifs with h
    · exact hc
    · exact cell_lt N (i + 1) j (by omega) (by omega) hj
  · split_ifs with h <;> omega
  · split_ifs with h
    · exact hc
    · have := cell_lt N i (j - 1) hi0 hi (by omega)
      omega
  · split_ifs with h <;> omega
  · split_ifs with h
    · exact hc
    · have := cell_lt N i (j + 1) hi0 hi (by omega)
      omega

/-- C18: for `N ≥ 1` and a cell `(i, j)` with `0 ≤ i, j < N`, the offsets `center`,
`top`, `bottom`, `left` and `right` used by the update all lie in `[0, N * N)`, and on
a boundary the offset of the missing neighbour is the offset of the cell itself. -/
theorem stencil_in_grid (N i j : Int) (_hN : 1 ≤ N) (hi0 : 0 ≤ i) (hi : i < N)
    (hj0 : 0 ≤ j) (hj : j < N) :
    ((0 ≤ (HeatSolver.stencil i j N).center ∧ (HeatSolver.stencil i j N).center < N * N) ∧
    (0 ≤ (HeatSolver.stencil i j N).top ∧ (HeatSolver.stencil i j N).top < N * N) ∧
    (0 ≤ (HeatSolver.stencil i j N).bottom ∧ (HeatSolver.stencil i j N).bottom < N * N) ∧
    (0 ≤ (HeatSolver.stencil i j N).left ∧ (HeatSolver.stencil i j N).left < N * N) ∧
    (0 ≤ (HeatSolver.stencil i j N).right ∧ (HeatSolver.stencil i j N).right < N * N)) ∧
    (HeatSolver.stencil i j N).center = HeatSolver.index i j N ∧
    (j = 0 → (HeatSolver.stencil i j N).left = (HeatSolver.stencil i j N).center) ∧
    (j = N - 1 → (HeatSolver.stencil i j N).right = (HeatSolver.stencil i j N).center) ∧
    (i = 0 → (HeatSolver.stencil i j N).top = (HeatSolver.stencil i j N).center) ∧
    (i = N - 1 → (HeatSolver.stencil i j N).bottom = (HeatSolver.stencil i j N).center) := by
  refine ⟨stencil_bounds N i j hi0 hi hj0 hj, rfl, ?_, ?_, ?_, ?_⟩ <;>
    intro h <;> simp [HeatSolver.stencil, h]

/-- Instance of C18 at `N = 3` and the corner cell `(0, 2)`. -/
theorem stencil_in_grid_witness :
    (1 : Int) ≤ 3 ∧ (0 : Int) ≤ 0 ∧ (0 : Int) < 3 ∧ (0 : Int) ≤ 2 ∧ (2 : Int) < 3 ∧
    (((0 ≤ (HeatSolver.stencil 0 2 3).center ∧ (HeatSolver.stencil 0 2 3).center < 3 * 3) ∧
    (0 ≤ (HeatSolver.stencil 0 2 3).top ∧ (HeatSolver.stencil 0 2 3).top < 3 * 3) ∧
    (0 ≤ (HeatSolver.stencil 0 2 3).bottom ∧ (HeatSolver.stencil 0 2 3).bottom < 3 * 3) ∧
    (0 ≤ (HeatSolver.stencil 0 2 3).left ∧ (HeatSolver.stencil 0 2 3).left < 3 * 3) ∧
    (0 ≤ (HeatSolver.stencil 0 2 3).right ∧ (HeatSolver.stencil 0 2 3).right < 3 * 3)) ∧
    (HeatSolver.stencil 0 2 3).center = HeatSolver.index 0 2 3 ∧
    ((2 : Int) = 0 → (HeatSolver.stencil 0 2 3).left = (HeatSolver.stencil 0 2 3).center) ∧
    ((2 : Int) = 3 - 1 → (HeatSolver.stencil 0 2 3).right = (HeatSolver.stencil 0 2 3).center) ∧
    ((0 : Int) = 0 → (HeatSolver.stencil 0 2 3).top = (HeatSolver.stencil 0 2 3).center) ∧
    ((0 : Int) = 3 - 1 → (HeatSolver.stencil 0 2 3).bottom = (HeatSolver.stencil 0 2 3).center)) :=
  ⟨by decide, by decide, by decide, by decide, by decide,
    stencil_in_grid 3 0 2 (by decide) (by decide) (by decide) (by decide) (by decide)⟩

/-! ## The maximum principle of the heat solver -/

/-- A double loop that stores `val i j` at offset `i * N + j` leaves, in every cell
of the `N × N` grid, a value with the property that all `val i j` have. -/
theorem fill_cells {σ : Type} (N : Nat) (π : σ → HeatSolver.Grid) (f : Nat → Nat → σ → σ)
    (val : Nat → Nat → ℚ) (Pv : ℚ → Prop)
    (hf : ∀ i j s, π (f i j s) = Function.update (π s) ((i : Int) * (N : Int) + (j : Int)) (val i j))
    (hval : ∀ i j, i < N → j < N → Pv (val i j)) (s0 : σ) (c : Int) (hc0 : 0 ≤ c)
    (hc : c < (N : Int) * (N : Int)) :
    Pv (π ((List.range N).foldl (fun s i =>
      (List.range N).foldl (fun s j => f i j s) s) s0) c) := by
  have outer := foldl_range_inv
    (fun s i => (List.range N).foldl (fun s j => f i j s) s)
    (fun m s => ∀ c : Int, 0 ≤ c → c < (m : Int) * (N : Int) → Pv (π s c)) s0 N
    (by intro c h0 h1; simp at h1; omega)
    (by
      intro i s hi hs
      have inner := foldl_range_inv (fun s j => f i j s)
        (fun m t => ∀ c : Int, 0 ≤ c → c < (i : Int) * (N : Int) + (m : Int) → Pv (π t c)) s N
        (by intro c h0 h1; exact hs c h0 (by simpa using h1))
        (by
          intro j t hj ht c h0 h1
          rw [hf, Function.update_apply]
          by_cases hcc : c = (i : Int) * (N : Int) + (j : Int)
          · rw [if_pos hcc]; exact hval i j hi hj
          · rw [if_neg hcc]
            refine ht c h0 ?_
            push_cast at h1
            omega)
      intro c h0 h1
      refine inner c h0 ?_
      have e : ((i + 1 : Nat) : Int) * (N : Int) = (i : Int) * (N : Int) + (N : Int) := by
        push_cast; ring
      omega)
  exact outer c hc0 hc

theorem new_temperature_bounds (mode : Int) (N : Nat) (grid : HeatSolver.Grid) (lo hi : ℚ)
    (hg : ∀ c : Int, 0 ≤ c → c < (N : Int) * (N : Int) → lo ≤ grid c ∧ grid c ≤ hi)
    (i j : Nat) (hi' : i < N) (hj : j < N) :
    lo ≤ HeatSolver.new_temperature mode grid (HeatSolver.stencil i j N) ∧
      HeatSolver.new_temperature mode grid (HeatSolver.stencil i j N) ≤ hi := by
  obtain ⟨_, ⟨t0, t1⟩, ⟨b0, b1⟩, ⟨l0, l1⟩, ⟨r0, r1⟩⟩ :=
    stencil_bounds (N : Int) (i : Int) (j : Int) (by omega) (by omega) (by omega) (by omega)
  obtain ⟨ht0, ht1⟩ := hg _ t0 t1
  obtain ⟨hb0, hb1⟩ := hg _ b0 b1
  obtain ⟨hl0, hl1⟩ := hg _ l0 l1
  obtain ⟨hr0, hr1⟩ := hg _ r0 r1
  unfold HeatSolver.new_temperature HeatSolver.W_x HeatSolver.W_y
  split_ifs
  · constructor <;> linarith
  · constructor <;> linarith

theorem sweep_body_fst (mode : Int) (N : Nat) (grid : HeatSolver.Grid) (i j : Nat)
    (s : HeatSolver.Grid × ℚ) :
    (HeatSolver.sweep_body mode N grid i j s).1 =
      Function.update s.1 ((i : Int) * (N : Int) + (j : Int))
        (HeatSolver.new_temperature mode grid (HeatSolver.stencil i j N)) := rfl

/-- One sweep keeps every bound of the current grid. -/
theorem sweep_bounds (mode : Int) (N : Nat) (grid next : HeatSolver.Grid) (lo hi : ℚ)
    (hg : ∀ c : Int, 0 ≤ c → c < (N : Int) * (N : Int) → lo ≤ grid c ∧ grid c ≤ hi)
    (c : Int) (hc0 : 0 ≤ c) (hc : c < (N : Int) * (N : Int)) :
    lo ≤ (HeatSolver.sweep mode N grid next).1 c ∧
      (HeatSolver.sweep mode N grid next).1 c ≤ hi :=
  fill_cells N Prod.fst (fun i j s => HeatSolver.sweep_body mode N grid i j s)
    (fun i j => HeatSolver.new_temperature mode grid (HeatSolver.stencil i j N))
    (fun v => lo ≤ v ∧ v ≤ hi)
    (fun i j s => sweep_body_fst mode N grid i j s)
    (fun i j hi' hj => new_temperature_bounds mode N grid lo hi hg i j hi' hj)
    (next, 0) c hc0 hc

theorem heat_loop_bounds (mode : Int) (N : Nat) (eps lo hi : ℚ) (n : Nat) :
    ∀ grid next : HeatSolver.Grid,
      (∀ c : Int, 0 ≤ c → c < (N : Int) * (N : Int) → lo ≤ grid c ∧ grid c ≤ hi) →
      ∀ c : Int, 0 ≤ c → c < (N : Int) * (N : Int) →
        lo ≤ (HeatSolver.heat_loop mode N eps n grid next).1 c ∧
          (HeatSolver.heat_loop mode N eps n grid next).1 c ≤ hi := by
  induction n with
  | zero => intro grid next hg c h0 h1; exact hg c h0 h1
  | succ n ih =>
    intro grid next hg c h0 h1
    have hs := sweep_bounds mode N grid next lo hi hg
    simp only [HeatSolver.heat_loop]
    split_ifs
    · exact hs c h0 h1
    · exact ih _ _ hs c h0 h1

theorem init_value_bounds (N mode i j : Int) :
    15 ≤ HeatSolver.init_value N mode i j ∧
      (mode = 0 → HeatSolver.init_value N mode i j ≤ 250) ∧
      HeatSolver.init_value N mode i j ≤ 540 := by
  unfold HeatSolver.init_value HeatSolver.T_HOT_A HeatSolver.T_AVG HeatSolver.T_HOT_B
  by_cases hm : mode = 0
  · simp only [hm, if_true]
    split_ifs <;> norm_num
  · simp only [hm, if_false]
    split_ifs <;> norm_num

theorem init_plate_bounds (N : Nat) (mode : Int) (grid : HeatSolver.Grid) (c : Int)
    (hc0 : 0 ≤ c) (hc : c < (N : Int) * (N : Int)) :
    15 ≤ HeatSolver.init_plate grid N mode c ∧
      (mode = 0 → HeatSolver.init_plate grid N mode c ≤ 250) ∧
      HeatSolver.init_plate grid N mode c ≤ 540 := by
  unfold HeatSolver.init_plate
  exact fill_cells N id
    (fun i j g => Function.update g (HeatSolver.index i j N) (HeatSolver.init_value N mode i j))
    (fun i j => HeatSolver.init_value N mode i j)
    (fun v => 15 ≤ v ∧ (mode = 0 → v ≤ 250) ∧ v ≤ 540)
    (fun _ _ _ => rfl)
    (fun i j _ _ => init_value_bounds N mode i j)
    grid c hc0 hc

theorem foldl_min_le (f : Nat → ℚ) (l : List Nat) (a : ℚ) :
    l.foldl (fun m c => min m (f c)) a ≤ a ∧
      ∀ c ∈ l, l.foldl (fun m c => min m (f c)) a ≤ f c := by
  induction l generalizing a with
  | nil => simp
  | cons x l ih =>
    obtain ⟨h1, h2⟩ := ih (min a (f x))
    simp only [List.foldl_cons, List.mem_cons]
    refine ⟨h1.trans (min_le_left _ _), ?_⟩
    rintro c (rfl | hc)
    · exact h1.trans (min_le_right _ _)
    · exact h2 c hc

theorem le_foldl_max (f : Nat → ℚ) (l : List Nat) (a : ℚ) :
    a ≤ l.foldl (fun m c => max m (f c)) a ∧
      ∀ c ∈ l, f c ≤ l.foldl (fun m c => max m (f c)) a := by
  induction l generalizing a with
  | nil => simp
  | cons x l ih =>
    obtain ⟨h1, h2⟩ := ih (max a (f x))
    simp only [List.foldl_cons, List.mem_cons]
    refine ⟨(le_max_left _ _).trans h1, ?_⟩
    rintro c (rfl | hc)
    · exact (le_max_right _ _).trans h1
    · exact h2 c hc

theorem grid_min_max (N : Nat) (grid : HeatSolver.Grid) (c : Int) (hc0 : 0 ≤ c)
    (hc : c < (N : Int) * (N : Int)) :
    HeatSolver.grid_min N grid ≤ grid c ∧ grid c ≤ HeatSolver.grid_max N grid := by
  have hcn : c.toNat ∈ List.range (N * N) := by
    rw [List.mem_range]
    have : ((N * N : Nat) : Int) = (N : Int) * (N : Int) := by push_cast; ring
    omega
  have e : ((c.toNat : Nat) : Int) = c := Int.toNat_of_nonneg hc0
  have h1 := (foldl_min_le (fun k => grid (k : Int)) (List.range (N * N)) (grid 0)).2 _ hcn
  have h2 := (le_foldl_max (fun k => grid (k : Int)) (List.range (N * N)) (grid 0)).2 _ hcn
  simp only [e] at h1 h2
  unfold HeatSolver.grid_min HeatSolver.grid_max
  exact ⟨h1, h2⟩

/-- C19: over exact rationals, for `N ≥ 1` every cell of the grid produced by one
sweep lies between the minimum and the maximum of the current grid; and in a run that
starts from `init_plate`, whatever `eps` and `max_iter` are, every cell of the grid
the loop ends with lies in `[15, 250]` in mode 0 and in `[15, 540]` in the other
mode. -/
theorem maximum_principle (N : Nat) (_hN : 1 ≤ N) (mode : Int) (grid next : HeatSolver.Grid)
    (eps : ℚ) (max_iter : Int) (c : Int) (hc0 : 0 ≤ c) (hc : c < (N : Int) * (N : Int)) :
    (HeatSolver.grid_min N grid ≤ (HeatSolver.sweep mode N grid next).1 c ∧
      (HeatSolver.sweep mode N grid next).1 c ≤ HeatSolver.grid_max N grid) ∧
    (15 ≤ HeatSolver.main N 0 eps max_iter c ∧ HeatSolver.main N 0 eps max_iter c ≤ 250) ∧
    (mode ≠ 0 →
      15 ≤ HeatSolver.main N mode eps max_iter c ∧ HeatSolver.main N mode eps max_iter c ≤ 540) := by
  refine ⟨?_, ?_, ?_⟩
  · exact sweep_bounds mode N grid next _ _ (fun k h0 h1 => grid_min_max N grid k h0 h1) c hc0 hc
  · unfold HeatSolver.main
    refine heat_loop_bounds 0 N eps 15 250 _ _ _ ?_ c hc0 hc
    intro k h0 h1
    obtain ⟨a, b, _⟩ := init_plate_bounds N 0 (fun _ => 0) k h0 h1
    exact ⟨a, b rfl⟩
  · intro _
    unfold HeatSolver.main
    refine heat_loop_bounds mode N eps 15 540 _ _ _ ?_ c hc0 hc
    intro k h0 h1
    obtain ⟨a, _, b⟩ := init_plate_bounds N mode (fun _ => 0) k h0 h1
    exact ⟨a, b⟩

/-- Instance of C19 at `N = 2`, mode 1, cell 3. -/
theorem maximum_principle_witness :
    1 ≤ 2 ∧ (0 : Int) ≤ 3 ∧ (3 : Int) < ((2 : Nat) : Int) * ((2 : Nat) : Int) ∧
    ((HeatSolver.grid_min 2 HeatSolver.sampleGrid
        ≤ (HeatSolver.sweep 1 2 HeatSolver.sampleGrid HeatSolver.sampleGrid).1 3 ∧
      (HeatSolver.sweep 1 2 HeatSolver.sampleGrid HeatSolver.sampleGrid).1 3
        ≤ HeatSolver.grid_max 2 HeatSolver.sampleGrid) ∧
    (15 ≤ HeatSolver.main 2 0 (1 / 1000) 10000 3 ∧ HeatSolver.main 2 0 (1 / 1000) 10000 3 ≤ 250) ∧
    ((1 : Int) ≠ 0 →
      15 ≤ HeatSolver.main 2 1 (1 / 1000) 10000 3 ∧
        HeatSolver.main 2 1 (1 / 1000) 10000 3 ≤ 540)) :=
  ⟨by decide, by decide, by decide,
    maximum_principle 2 (by decide) 1 HeatSolver.sampleGrid HeatSolver.sampleGrid (1 / 1000)
      10000 3 (by decide) (by decide)⟩

/-! ## A single process -/

theorem main_single {R : Type} [CommRing R] (N : Nat) (A B : Buf R) (mem : World R)
    (fresh C : Buf R) :
    Systolic.main 1 N A B mem fresh C =
      Outcome.mk [Event.distribute, Event.stage 0, Event.write_full_matrix]
        (Except.ok (collect 1 N 1 N
          (fun r => (run_stages 1 N (stages 1) (startup N 1 N A B fresh mem) r).Cblk)
          fresh C)) := by
  have h := main_proceeds 1 N (le_refl 1) A B mem fresh C
  simp only [Nat.one_mul] at h
  rw [h]
  rfl

theorem single_result_cell {R : Type} [CommRing R] (N : Nat) (hN : 1 ≤ N) (A B : Buf R)
    (mem : World R) (fresh C : Buf R) (x : Nat) (hx : x < N * N) :
    collect 1 N 1 N
        (fun r => (run_stages 1 N (stages 1) (startup N 1 N A B fresh mem) r).Cblk)
        fresh C x
      = (dgemm_tile (Tile.mk A B (fun _ => 0)) N).C x := by
  have hi : x / N < 1 * N := by rw [Nat.one_mul]; exact idx_div_lt N N x hx
  have hj : x % N < 1 * N := by rw [Nat.one_mul]; exact Nat.mod_lt _ hN
  have h := main_result_cell 1 N (le_refl 1) hN A B mem fresh C (x / N) (x % N) hi hj
  simp only [Nat.one_mul, idx_decomp] at h
  rw [h, (dgemm_tile_spec N (Tile.mk A B (fun _ => 0))).2.2 x, if_pos hx]
  simp

/-- C14: with one process (`p = 1`, `bs = N`) the stage loop has exactly one stage,
the process has no east, south, west or north neighbour, stage 0 loads band block 0,
which is the whole of `A` and the whole of `B`, `dgemm_tile` is called exactly once,
and the matrix written equals `dgemm_tile(A, B, 0, N)`. -/
theorem single_process {R : Type} [CommRing R] (N : Nat) (hN : 1 ≤ N) (A B : Buf R)
    (mem : World R) (fresh C : Buf R) (x : Nat) (hx : x < N * N) :
    round_sqrt 1 = 1 ∧ stages 1 = 1 ∧
    (east 1 0 = none ∧ south 1 0 = none ∧ west 1 0 = none ∧ north 1 0 = none) ∧
    ((startup N 1 N A B fresh mem 0).A_rowbuf (0 * N * N + x) = A x ∧
      (startup N 1 N A B fresh mem 0).B_colbuf (0 * N * N + x) = B x) ∧
    ((stage_replace 1 N 0 0 (startup N 1 N A B fresh mem)).Ablk x = A x ∧
      (stage_replace 1 N 0 0 (startup N 1 N A B fresh mem)).Bblk x = B x) ∧
    (run_stages 1 N (stages 1) (startup N 1 N A B fresh mem) 0).calls = [0] ∧
    ∃ Cfull : Buf R,
      Systolic.main 1 N A B mem fresh C =
        Outcome.mk [Event.distribute, Event.stage 0, Event.write_full_matrix]
          (Except.ok Cfull) ∧
      Cfull x = (dgemm_tile (Tile.mk A B (fun _ => 0)) N).C x := by
  have hsub : ∀ M : Buf R, sub_block M N N 0 0 x = M x := by
    intro M
    simp only [sub_block, Nat.zero_mul, Nat.zero_add, Nat.add_zero]
    rw [idx_decomp]
  have hrow := startup_rowbuf 1 N A B fresh mem 0 0 x (by decide) hx
  have hcol := startup_colbuf 1 N A B fresh mem 0 0 x (by decide) (by decide) hx
  have hrep := replace_holds_blocks 1 N 0 A B fresh mem _
    (pipeline_inv_start 1 N A B fresh mem) 0 0 0 (by decide) (by decide) (by decide) rfl x hx
  have hcalls := calls_after 1 N (stages 1) 0 0 (by decide)
    (startup (1 * N) 1 N A B fresh mem) (startup_calls _ _ _ _ _ _ _ _)
  simp only [Nat.one_mul, Nat.zero_mul, Nat.zero_add, Nat.add_zero] at hrow hcol hrep hcalls
  simp only [hsub] at hrow hcol hrep
  refine ⟨by simp [round_sqrt], rfl, ⟨by decide, by decide, by decide, by decide⟩, ⟨?_, ?_⟩,
    hrep, ?_, _, main_single N A B mem fresh C, single_result_cell N hN A B mem fresh C x hx⟩
  · simpa using hrow
  · simpa using hcol
  · rw [hcalls]
    rfl

/-- Instance of C14 at `N = 2`, cell 3. -/
theorem single_process_witness :
    1 ≤ 2 ∧ 3 < 2 * 2 ∧
    (round_sqrt 1 = 1 ∧ stages 1 = 1 ∧
    (east 1 0 = none ∧ south 1 0 = none ∧ west 1 0 = none ∧ north 1 0 = none) ∧
    ((startup 2 1 2 sampleA2 sampleB2 sampleFresh sampleMem 0).A_rowbuf (0 * 2 * 2 + 3)
        = sampleA2 3 ∧
      (startup 2 1 2 sampleA2 sampleB2 sampleFresh sampleMem 0).B_colbuf (0 * 2 * 2 + 3)
        = sampleB2 3) ∧
    ((stage_replace 1 2 0 0 (startup 2 1 2 sampleA2 sampleB2 sampleFresh sampleMem)).Ablk 3
        = sampleA2 3 ∧
      (stage_replace 1 2 0 0 (startup 2 1 2 sampleA2 sampleB2 sampleFresh sampleMem)).Bblk 3
        = sampleB2 3) ∧
    (run_stages 1 2 (stages 1) (startup 2 1 2 sampleA2 sampleB2 sampleFresh sampleMem) 0).calls
      = [0] ∧
    ∃ Cfull : Buf Int,
      Systolic.main 1 2 sampleA2 sampleB2 sampleMem sampleFresh sampleFresh =
        Outcome.mk [Event.distribute, Event.stage 0, Event.write_full_matrix]
          (Except.ok Cfull) ∧
      Cfull 3 = (dgemm_tile (Tile.mk sampleA2 sampleB2 (fun _ => 0)) 2).C 3) :=
  ⟨by decide, by decide,
    single_process 2 (by decide) sampleA2 sampleB2 sampleMem sampleFresh sampleFresh 3
      (by decide)⟩

/-- The scenario `N = 2`, `P = 1`: `A = [[1,2],[3,4]]` and `B = [[5,6],[7,8]]` give
`C = [[19,22],[43,50]]`. -/
theorem single_scenario (mem : World Int) (fresh C : Buf Int) :
    ∃ Cfull : Buf Int,
      Systolic.main 1 2 sampleA2 sampleB2 mem fresh C =
        Outcome.mk [Event.distribute, Event.stage 0, Event.write_full_matrix]
          (Except.ok Cfull) ∧
      Cfull 0 = 19 ∧ Cfull 1 = 22 ∧ Cfull 2 = 43 ∧ Cfull 3 = 50 := by
  refine ⟨_, main_single 2 sampleA2 sampleB2 mem fresh C, ?_, ?_, ?_, ?_⟩
  · have h := main_result_cell 1 2 (by decide) (by decide) sampleA2 sampleB2 mem fresh C 0 0
      (by decide) (by decide)
    rw [show stages 1 = 1 from rfl] at h ⊢
    exact h.trans (by decide)
  · have h := main_result_cell 1 2 (by decide) (by decide) sampleA2 sampleB2 mem fresh C 0 1
      (by decide) (by decide)
    rw [show stages 1 = 1 from rfl] at h ⊢
    exact h.trans (by decide)
  · have h := main_result_cell 1 2 (by decide) (by decide) sampleA2 sampleB2 mem fresh C 1 0
      (by decide) (by decide)
    rw [show stages 1 = 1 from rfl] at h ⊢
    exact h.trans (by decide)
  · have h := main_result_cell 1 2 (by decide) (by decide) sampleA2 sampleB2 mem fresh C 1 1
      (by decide) (by decide)
    rw [show stages 1 = 1 from rfl] at h ⊢
    exact h.trans (by decide)

/-! ## Size detection -/

theorem scan_char_plain (st : Scan) (c : Char) (h1 : c ≠ ',') (h2 : c ≠ '\n') :
    scan_char st c = { rows := st.rows, cols := st.cols, first := st.first, last := c } := by
  simp [scan_char, h1, h2]

/-- Reading a field leaves the counters unchanged; after a non-empty field the last
character is not a newline. -/
theorem scan_field (f : List Char) (hc : ',' ∉ f) (hn : '\n' ∉ f) (st : Scan) :
    (f.foldl scan_char st).rows = st.rows ∧ (f.foldl scan_char st).cols = st.cols ∧
      (f.foldl scan_char st).first = st.first ∧
      ((f ≠ [] ∨ st.last ≠ '\n') → (f.foldl scan_char st).last ≠ '\n') := by
  induction f generalizing st with
  | nil => simp
  | cons c f ih =>
    have h1 : c ≠ ',' := fun h => hc (by simp [h])
    have h2 : c ≠ '\n' := fun h => hn (by simp [h])
    have hc' : ',' ∉ f := fun h => hc (List.mem_cons_of_mem _ h)
    have hn' : '\n' ∉ f := fun h => hn (List.mem_cons_of_mem _ h)
    obtain ⟨a, b, c', d⟩ := ih hc' hn' (scan_char st c)
    rw [List.foldl_cons]
    rw [scan_char_plain st c h1 h2] at a b c' d ⊢
    exact ⟨a, b, c', fun _ => d (Or.inr h2)⟩

/-- Reading a row of non-empty fields joined by commas adds one column per comma while
`first` is set, and ends on a character that is not a newline. -/
theorem scan_row (row : List (List Char)) (hne : row ≠ [])
    (hf : ∀ f ∈ row, f ≠ [] ∧ ',' ∉ f ∧ '\n' ∉ f) (st : Scan) :
    ((join_sep ',' row).foldl scan_char st).rows = st.rows ∧
      ((join_sep ',' row).foldl scan_char st).cols
        = st.cols + (if st.first ≠ 0 then row.length - 1 else 0) ∧
      ((join_sep ',' row).foldl scan_char st).first = st.first ∧
      ((join_sep ',' row).foldl scan_char st).last ≠ '\n' := by
  induction row generalizing st with
  | nil => exact absurd rfl hne
  | cons x rest ih =>
    obtain ⟨hx0, hxc, hxn⟩ := hf x (List.mem_cons_self _ _)
    cases rest with
    | nil =>
      obtain ⟨a, b, c, d⟩ := scan_field x hxc hxn st
      simp only [join_sep, List.length_singleton, Nat.sub_self, ite_self, Nat.add_zero]
      exact ⟨a, b, c, d (Or.inl hx0)⟩
    | cons y rest =>
      obtain ⟨a, b, c, _⟩ := scan_field x hxc hxn st
      have hf' : ∀ f ∈ y :: rest, f ≠ [] ∧ ',' ∉ f ∧ '\n' ∉ f :=
        fun f h => hf f (List.mem_cons_of_mem _ h)
      simp only [join_sep, List.foldl_append, List.foldl_cons]
      by_cases h0 : st.first ≠ 0
      · have e : scan_char (x.foldl scan_char st) ','
            = { rows := st.rows, cols := st.cols + 1, first := st.first, last := ',' } := by
          simp [scan_char, a, b, c, h0]
        rw [e]
        obtain ⟨a', b', c', d'⟩ := ih (List.cons_ne_nil _ _) hf'
          { rows := st.rows, cols := st.cols + 1, first := st.first, last := ',' }
        dsimp only at a' b' c'
        refine ⟨a', ?_, c', d'⟩
        rw [b']
        simp only [h0, if_true, List.length_cons, ne_eq, not_false_eq_true]
        omega
      · have e : scan_char (x.foldl scan_char st) ','
            = { rows := st.rows, cols := st.cols, first := st.first, last := ',' } := by
          simp [scan_char, a, b, c, h0]
        rw [e]
        obtain ⟨a', b', c', d'⟩ := ih (List.cons_ne_nil _ _) hf'
          { rows := st.rows, cols := st.cols, first := st.first, last := ',' }
        dsimp only at a' b' c'
        refine ⟨a', ?_, c', d'⟩
        rw [b']
        simp only [h0, if_false]

/-- Reading rows joined by newlines: one more row per newline, the columns of the
first row only, and a last character that is not a newline. -/
theorem scan_rows (rows : List (List (List Char))) (hne : rows ≠ [])
    (hr : ∀ row ∈ rows, row ≠ [] ∧ ∀ f ∈ row, f ≠ [] ∧ ',' ∉ f ∧ '\n' ∉ f) (st : Scan) :
    ((csv_text rows).foldl scan_char st).rows = st.rows + (rows.length - 1) ∧
      ((csv_text rows).foldl scan_char st).cols
        = st.cols + (if st.first ≠ 0 then (rows.head hne).length - 1 else 0) ∧
      ((csv_text rows).foldl scan_char st).last ≠ '\n' := by
  induction rows generalizing st with
  | nil => exact absurd rfl hne
  | cons x rest ih =>
    obtain ⟨hx0, hxf⟩ := hr x (List.mem_cons_self _ _)
    obtain ⟨a, b, c, d⟩ := scan_row x hx0 hxf st
    cases rest with
    | nil =>
      simp only [csv_text, List.map_cons, List.map_nil, join_sep, List.length_singleton,
        Nat.sub_self, Nat.add_zero, List.head_cons]
      exact ⟨a, b, d⟩
    | cons y rest =>
      have hr' : ∀ row ∈ y :: rest, row ≠ [] ∧ ∀ f ∈ row, f ≠ [] ∧ ',' ∉ f ∧ '\n' ∉ f :=
        fun row h => hr row (List.mem_cons_of_mem _ h)
      have e : scan_char ((join_sep ',' x).foldl scan_char st) '\n'
          = { rows := st.rows + 1,
              cols := st.cols + (if st.first ≠ 0 then x.length - 1 else 0),
              first := 0, last := '\n' } := by
        simp [scan_char, a, b]
      have hcsv : csv_text (x :: y :: rest)
          = join_sep ',' x ++ '\n' :: csv_text (y :: rest) := by
        simp [csv_text, join_sep]
      rw [hcsv, List.foldl_append, List.foldl_cons, e]
      obtain ⟨a', b', d'⟩ := ih (List.cons_ne_nil _ _) hr'
        { rows := st.rows + 1,
          cols := st.cols + (if st.first ≠ 0 then x.length - 1 else 0),
          first := 0, last := '\n' }
      dsimp only at a' b'
      refine ⟨?_, ?_, d'⟩
      · rw [a']
        simp only [List.length_cons]
        omega
      · rw [b']
        simp

/-- C12: for `N ≥ 1` and a text of `N` rows of `N` non-empty fields free of commas and
newlines, the fields joined by single commas and the rows by newlines,
`detect_matrix_size` returns `N` both without and with a newline after the last
row. -/
theorem detect_size_trailing_newline (N : Nat) (hN : 1 ≤ N) (rows : List (List (List Char)))
    (hlen : rows.length = N)
    (hrow : ∀ row ∈ rows, row.length = N ∧ ∀ f ∈ row, f ≠ [] ∧ ',' ∉ f ∧ '\n' ∉ f) :
    detect_matrix_size (some (csv_text rows)) = Except.ok N ∧
      detect_matrix_size (some (csv_text rows ++ ['\n'])) = Except.ok N := by
  have hne : rows ≠ [] := by
    intro h
    rw [h] at hlen
    simp at hlen
    omega
  have hr : ∀ row ∈ rows, row ≠ [] ∧ ∀ f ∈ row, f ≠ [] ∧ ',' ∉ f ∧ '\n' ∉ f := by
    intro row h
    obtain ⟨h1, h2⟩ := hrow row h
    refine ⟨?_, h2⟩
    intro h0
    rw [h0] at h1
    simp at h1
    omega
  have hhead : (rows.head hne).length = N := (hrow _ (List.head_mem hne)).1
  obtain ⟨a, b, d⟩ := scan_rows rows hne hr
    { rows := 0, cols := 1, first := 1, last := Char.ofNat 0 }
  simp only [hlen, hhead, Nat.zero_add] at a b
  have b' : ((csv_text rows).foldl scan_char
      { rows := 0, cols := 1, first := 1, last := Char.ofNat 0 }).cols = N := by
    rw [b]
    simp
    omega
  constructor
  · simp only [detect_matrix_size, if_pos d, a, b']
    rw [if_neg (by omega)]
    congr 1
    omega
  · simp only [detect_matrix_size, List.foldl_append, List.foldl_cons, List.foldl_nil]
    have e : scan_char ((csv_text rows).foldl scan_char
        { rows := 0, cols := 1, first := 1, last := Char.ofNat 0 }) '\n'
        = { rows := N - 1 + 1,
            cols := N,
            first := 0, last := '\n' } := by
      simp [scan_char, a, b']
    rw [e]
    simp only [ne_eq, not_true_eq_false, if_false]
    rw [if_neg (by omega)]
    congr 1
    omega

/-- Instance of C12 at `N = 2` with the rows `1,2` and `3,4`. -/
theorem detect_size_trailing_newline_witness :
    1 ≤ 2 ∧ sampleRows2.length = 2 ∧
    (∀ row ∈ sampleRows2, row.length = 2 ∧ ∀ f ∈ row, f ≠ [] ∧ ',' ∉ f ∧ '\n' ∉ f) ∧
    (detect_matrix_size (some (csv_text sampleRows2)) = Except.ok 2 ∧
      detect_matrix_size (some (csv_text sampleRows2 ++ ['\n'])) = Except.ok 2) :=
  ⟨by decide, by decide, by decide,
    detect_size_trailing_newline 2 (by decide) sampleRows2 (by decide) (by decide)⟩

/-! ## Non-square input -/

/-- A first file that `detect_matrix_size` rejects ends the run before anything else
happens. -/
theorem nonsquare_A_rejected {R : Type} [CommRing R]
    (scan_lf : List Char → Option (R × List Char)) (size : Nat)
    (Afile Bfile : Option (List Char)) (mem : World R) (fresh C : Buf R) (code : Nat)
    (h : detect_matrix_size Afile = Except.error code) :
    main_from_files scan_lf size Afile Bfile mem fresh C = Outcome.mk [] (Except.error code) := by
  simp only [main_from_files, h]

/-- C13 (as the code behaves): with one process, the first file holding the rows `1,2`
and `3,4` and the second file holding the single row `1,2,3,4`, the second file is
not square (`detect_matrix_size` rejects it), yet `read_full_matrix` reads its four
values with `N = 2`, the stage runs and a matrix is written. -/
theorem nonsquare_B_accepted :
    detect_matrix_size (some sampleFile2x2) = Except.ok 2 ∧
    detect_matrix_size (some sampleFile1x4) = Except.error 1 ∧
    (∃ B : Buf Int,
      read_full_matrix scan_digits (some sampleFile1x4) sampleFresh 2 = Except.ok B ∧
      (List.range 4).map B = [1, 2, 3, 4]) ∧
    ∃ Cfull : Buf Int,
      main_from_files scan_digits 1 (some sampleFile2x2) (some sampleFile1x4) sampleMem
          sampleFresh sampleFresh =
        Outcome.mk [Event.distribute, Event.stage 0, Event.write_full_matrix]
          (Except.ok Cfull) := by
  have hd : detect_matrix_size (some sampleFile2x2) = Except.ok 2 := rfl
  have ht : topology_fails 1 2 = false := by
    rw [topology_fails_eq_false_iff]
    have h1 : round_sqrt 1 = 1 := round_sqrt_sq 1
    rw [h1]
    exact ⟨rfl, rfl⟩
  obtain ⟨A, hA⟩ : ∃ A : Buf Int,
      read_full_matrix scan_digits (some sampleFile2x2) sampleFresh 2 = Except.ok A := ⟨_, rfl⟩
  obtain ⟨B, hB⟩ : ∃ B : Buf Int,
      read_full_matrix scan_digits (some sampleFile1x4) sampleFresh 2 = Except.ok B := ⟨_, rfl⟩
  refine ⟨hd, rfl, ⟨_, rfl, by decide⟩, ?_⟩
  simp only [main_from_files, hd, ht, hA, hB]
  exact ⟨_, main_single 2 A B sampleMem sampleFresh sampleFresh⟩
